import Mathlib

/-!
Verification of `whats_next` (Go): a shallow embedding of the section
matcher (`parse.go`), the non-terminal input collector (`readline.go`),
the HTTP responder (`handleRequest` / `handleServer`) and the broker
bookkeeping (`notifyRequestAccepted` / `notifyRequestFinished`), together
with proofs and refutations of the frozen specification claims.

Go strings are modelled as lists of characters (`GoStr`); Go's standard
library string and path helpers used by the program are given faithful
executable models below.  Genuinely external effects — the process
environment, the home directory, the `gobwas/glob` library and the
git-worktree relationship (which shells out to `git`) — are parameters
collected in a `Ctx` structure, mirroring the capability-interface
treatment the design notes prescribe for them.
-/

namespace WN

/-- Model of a Go string: its sequence of characters. -/
abbrev GoStr := List Char

/-- Convert a Lean string literal to the model type. -/
def gs (s : String) : GoStr := s.data

/-- Whitespace test used by the model of `strings.TrimSpace`
(ASCII whitespace, which covers every input in this development). -/
def isSpaceChar (c : Char) : Bool :=
  c = ' ' || c = '\t' || c = '\n' || c = '\x0b' || c = '\x0c' || c = '\r'

/-- Model of `strings.TrimSpace`: drop whitespace from both ends. -/
def trimSpace (s : GoStr) : GoStr :=
  ((s.dropWhile isSpaceChar).reverse.dropWhile isSpaceChar).reverse

/-- Model of `strings.HasPrefix s pre`. -/
def goStartsWith (s pre : GoStr) : Bool := pre.isPrefixOf s

/-- Model of `strings.HasSuffix s suf`. -/
def goEndsWith (s suf : GoStr) : Bool := suf.isSuffixOf s

/-- Model of `strings.CutSuffix`: `some` of the remainder when the suffix
is present, `none` otherwise. -/
def goCutSuffix (s suf : GoStr) : Option GoStr :=
  if goEndsWith s suf then some (s.take (s.length - suf.length)) else none

/-- Model of `strings.TrimSuffix`. -/
def goTrimSuffix (s suf : GoStr) : GoStr :=
  if goEndsWith s suf then s.take (s.length - suf.length) else s

/-- Model of `strings.Index s sub`: position of the first occurrence of
`sub` in `s` (`none` models Go's `-1`). -/
def indexOfSub (s sub : GoStr) : Option Nat :=
  if sub.isPrefixOf s then some 0
  else
    match s with
    | [] => none
    | _ :: t => (indexOfSub t sub).map (· + 1)

/-- Model of `strings.Contains s sub`. -/
def containsSub (s sub : GoStr) : Bool := (indexOfSub s sub).isSome

/-- Model of `strings.ContainsAny s chars`. -/
def containsAnyOf (s : GoStr) (chars : List Char) : Bool :=
  s.any (fun c => chars.contains c)

/-- Model of `strings.Split s (String sep)` for a one-character separator:
Go never returns an empty list, and splitting the empty string yields
`[""]`. -/
def splitGo (sep : Char) : GoStr → List GoStr
  | [] => [[]]
  | c :: rest =>
    if c = sep then [] :: splitGo sep rest
    else
      match splitGo sep rest with
      | [] => [[c]]
      | l :: ls => (c :: l) :: ls

/-- Model of `strings.Join l "\n"` (specialised to the newline separator,
the only join the filtering pipeline performs). -/
def joinWithNL : List GoStr → GoStr
  | [] => []
  | [x] => x
  | x :: xs => x ++ '\n' :: joinWithNL xs

/-- Model of `strings.Trim s cutset` for a one-character cutset:
drop that character from both ends. -/
def trimChar (cut : Char) (s : GoStr) : GoStr :=
  ((s.dropWhile (· = cut)).reverse.dropWhile (· = cut)).reverse

/-- Model of `filepath.IsAbs` on Unix: the path starts with a slash. -/
def isAbsPath (p : GoStr) : Bool := goStartsWith p (gs "/")

/-- Element processor for the model of `filepath.Clean`: the classic
stack algorithm over the slash-separated elements (`..` pops, `.` and
empty elements vanish, `..` at the root vanishes when rooted and is kept
when relative). -/
def cleanElems (rooted : Bool) : List GoStr → List GoStr → List GoStr
  | acc, [] => acc
  | acc, e :: rest =>
    if e = [] || e = gs "." then cleanElems rooted acc rest
    else if e = gs ".." then
      match acc.getLast? with
      | some l =>
        if l = gs ".." then cleanElems rooted (acc ++ [e]) rest
        else cleanElems rooted (acc.dropLast) rest
      | none =>
        if rooted then cleanElems rooted acc rest
        else cleanElems rooted (acc ++ [e]) rest
    else cleanElems rooted (acc ++ [e]) rest

/-- Join path elements with slashes (used by the `filepath.Clean` model). -/
def joinWithSlash : List GoStr → GoStr
  | [] => []
  | [x] => x
  | x :: xs => x ++ '/' :: joinWithSlash xs

/-- Model of `filepath.Clean` on Unix paths. -/
def cleanPath (p : GoStr) : GoStr :=
  if p = [] then gs "."
  else
    let rooted := isAbsPath p
    let elems := cleanElems rooted [] (splitGo '/' p)
    let out := joinWithSlash elems
    if rooted then '/' :: out
    else if out = [] then gs "." else out

/-- Model of `filepath.Join a b` for two arguments: join the non-empty
arguments with a slash and clean the result; all-empty input yields the
empty string. -/
def joinPath (a b : GoStr) : GoStr :=
  if a = [] && b = [] then []
  else if a = [] then cleanPath b
  else if b = [] then cleanPath a
  else cleanPath (a ++ '/' :: b)

/-- External capabilities consumed by the section matcher, modelled as a
capability interface exactly as the design notes prescribe: the home
directory (`os.UserHomeDir`), environment-variable expansion
(`os.ExpandEnv`), the process working directory (`os.Getwd`, used by
`filepath.Abs` on relative paths), the `gobwas/glob` library
(`glob.Compile` with separator `/`: `none` models a compile error, and a
compiled pattern is its match predicate), and the git-worktree
relationship test `isGitWorktree` (which shells out to `git`). -/
structure Ctx where
  userHomeDir : Option GoStr
  expandEnv : GoStr → GoStr
  getwd : Option GoStr
  globCompile : GoStr → Option (GoStr → Bool)
  isGitWorktree : GoStr → GoStr → Bool

/-- Model of `filepath.Abs`: absolute paths are cleaned, relative paths
are joined onto the process working directory; `none` models the error
case (`os.Getwd` failing). -/
def filepathAbs (ctx : Ctx) (path : GoStr) : Option GoStr :=
  if isAbsPath path then some (cleanPath path)
  else ctx.getwd.map fun wd => joinPath wd path

/-- `Section` from `parse.go`: a markdown section, a heading line plus
the body up to the next heading. -/
structure Section where
  title : GoStr
  content : GoStr
deriving DecidableEq

/-- `MatchReason` from `parse.go`; `noMatch` models `MatchReasonNone`. -/
inductive MatchReason where
  | noMatch
  | noProject
  | pathMatch
  | globMatch
  | gitWorktree
deriving DecidableEq

/-- `SectionMatch` from `parse.go` (`sec` models the `Section` field,
whose Go name is a Lean keyword). -/
structure SectionMatch where
  sec : Section
  matchReason : MatchReason
  projectPath : GoStr
  specificity : Int
deriving DecidableEq

/-- The result 4-tuple of `shouldIncludeSection`. -/
structure IncludeResult where
  included : Bool
  reason : MatchReason
  projectPath : GoStr
  specificity : Int
deriving DecidableEq

/-- The fence marker (three backquotes) tested by `parseSections`. -/
def fenceMarker : GoStr := [Char.ofNat 96, Char.ofNat 96, Char.ofNat 96]

/-- One line's effect on the code-fence state: any line whose trimmed
form starts with the fence marker toggles it (`parseSections`). -/
def fenceStep (b : Bool) (line : GoStr) : Bool :=
  if goStartsWith (trimSpace line) fenceMarker then !b else b

/-- Appending one line to a section body, exactly as `parseSections`
does: a newline separator is inserted only when the body is non-empty
(so leading empty lines are dropped). -/
def appendLine (content line : GoStr) : GoStr :=
  if content = [] then line else content ++ '\n' :: line

/-- The line loop of `parseSections`: state is the currently open
section and the code-fence flag.  A line starting with `#` outside a
fence flushes the open section and opens a new one; every other line is
appended to the open section (or discarded when none is open). -/
def parseSectionsAux : List GoStr → Option Section → Bool → List Section
  | [], none, _ => []
  | [], some cur, _ => [cur]
  | line :: rest, cur, inCodeBlock =>
    let inCodeBlock' := fenceStep inCodeBlock line
    if !inCodeBlock' && goStartsWith line (gs "#") then
      (match cur with
       | some c => [c]
       | none => []) ++ parseSectionsAux rest (some ⟨line, []⟩) inCodeBlock'
    else
      parseSectionsAux rest (cur.map fun c => ⟨c.title, appendLine c.content line⟩) inCodeBlock'

/-- `parseSections` from `parse.go`. -/
def parseSections (content : GoStr) : List Section :=
  parseSectionsAux (splitGo '\n' content) none false

/-- `containsGlobPattern` from `parse.go`. -/
def containsGlobPattern (path : GoStr) : Bool :=
  containsAnyOf path ['*', '?', '[', ']', '{', '}']

/-- The scanning loop of `hasCursorOnlyDirective`, restructured as a
character scanner: outside parentheses it looks for `(`; inside, it
accumulates the group's content (reversed) until `)` and then tests the
trimmed content for `cursor-only`, continuing with the rest otherwise.
This visits exactly the parenthetical groups the Go index-based loop
visits. -/
def cursorScan : GoStr → Option GoStr → Bool
  | [], _ => false
  | c :: t, none => if c = '(' then cursorScan t (some []) else cursorScan t none
  | c :: t, some acc =>
    if c = ')' then
      (if containsSub (trimSpace acc.reverse) (gs "cursor-only") then true
       else cursorScan t none)
    else cursorScan t (some (c :: acc))

/-- `hasCursorOnlyDirective` from `parse.go`. -/
def hasCursorOnlyDirective (heading : GoStr) : Bool :=
  cursorScan heading none

/-- `shouldIncludeSection` from `parse.go`: decide whether a heading's
section is included for working directory `cwd`, with the match reason,
the resolved project path and the specificity. -/
def shouldIncludeSection (ctx : Ctx) (heading cwd : GoStr) (isCursor : Bool) : IncludeResult :=
  if hasCursorOnlyDirective heading && !isCursor then ⟨false, .noMatch, [], 0⟩
  else
    match indexOfSub heading (gs "(project:") with
    | none => ⟨true, .noProject, [], 0⟩
    | some projectStart =>
      match indexOfSub (heading.drop projectStart) (gs ")") with
      | none => ⟨true, .noProject, [], 0⟩
      | some projectEnd =>
        let projectSpec := ((heading.drop projectStart).take projectEnd).drop (gs "(project:").length
        let tilded :=
          let p := trimSpace projectSpec
          if goStartsWith p (gs "~/") then
            match ctx.userHomeDir with
            | some home => joinPath home (p.drop 2)
            | none => p
          else p
        let projectPath := ctx.expandEnv tilded
        let absProjectPath :=
          cleanPath (if isAbsPath projectPath then projectPath else joinPath cwd projectPath)
        match filepathAbs ctx cwd with
        | none => ⟨true, .noProject, [], 0⟩
        | some absCwd =>
          let specificity : Int :=
            if containsGlobPattern projectPath then
              1000 + ((splitGo '/' (trimChar '/' absProjectPath)).filter
                        (fun seg => !containsGlobPattern seg)).length
            else
              ((splitGo '/' (trimChar '/' absProjectPath)).length : Int)
          if containsGlobPattern projectPath then
            match ctx.globCompile absProjectPath with
            | none => ⟨true, .noProject, [], 0⟩
            | some g =>
              if g absCwd then ⟨true, .globMatch, absProjectPath, specificity⟩
              else ⟨false, .noMatch, [], 0⟩
          else if goStartsWith absCwd absProjectPath then
            ⟨true, .pathMatch, absProjectPath, specificity⟩
          else if ctx.isGitWorktree absCwd absProjectPath then
            ⟨true, .gitWorktree, absProjectPath, specificity⟩
          else ⟨false, .noMatch, [], 0⟩

/-- `replaceProjectPath` from `parse.go`: rewrite the `(project: ...)`
group of a heading to the actual directory. -/
def replaceProjectPath (heading actualDir : GoStr) : GoStr :=
  match indexOfSub heading (gs "(project:") with
  | none => heading
  | some projectStart =>
    match indexOfSub (heading.drop projectStart) (gs ")") with
    | none => heading
    | some projectEndRel =>
      let projectEnd := projectEndRel + projectStart
      heading.take projectStart ++ gs "(project: " ++ actualDir ++ gs ")"
        ++ heading.drop (projectEnd + 1)

/-- The match-collection loop of `filterContentByDir`: every section
whose heading passes `shouldIncludeSection` becomes a `SectionMatch`. -/
def collectMatches (ctx : Ctx) (sections : List Section) (dir : GoStr) (isCursor : Bool) :
    List SectionMatch :=
  sections.filterMap fun s =>
    let r := shouldIncludeSection ctx s.title dir isCursor
    if r.included then some ⟨s, r.reason, r.projectPath, r.specificity⟩ else none

/-- The partition loop of `selectMostSpecificMatches`: no-project,
exact (everything that is neither no-project nor glob) and glob matches,
in order. -/
def partitionStep :
    List SectionMatch × List SectionMatch × List SectionMatch → SectionMatch →
    List SectionMatch × List SectionMatch × List SectionMatch
  | (np, ex, gl), m =>
    if m.matchReason = .noProject then (np ++ [m], ex, gl)
    else if m.matchReason = .globMatch then (np, ex, gl ++ [m])
    else (np, ex ++ [m], gl)

/-- `selectMostSpecificMatches` from `parse.go`: keep every no-project
match, the exact matches of maximum specificity, and every glob match,
then restore the original order by scanning the input and looking each
kept match up by its section's title and content. -/
def selectMostSpecificMatches (ms : List SectionMatch) : List SectionMatch :=
  if ms = [] then ms
  else
    let parts := ms.foldl partitionStep ([], [], [])
    let noProjectMatches := parts.1
    let exactMatches := parts.2.1
    let globMatches := parts.2.2
    let maxExactSpecificity :=
      exactMatches.foldl (fun acc m => if m.specificity > acc then m.specificity else acc) 0
    let result := noProjectMatches
      ++ (if exactMatches ≠ [] then
            exactMatches.filter (fun m => decide (m.specificity = maxExactSpecificity))
          else [])
      ++ globMatches
    ms.foldl (fun acc om =>
      match result.find? (fun rm =>
          decide (om.sec.title = rm.sec.title ∧ om.sec.content = rm.sec.content)) with
      | some rm => acc ++ [rm]
      | none => acc) []

/-- The rewrite step of `filterContentByDir`: a section matched via the
git-worktree fallback has its heading's project path replaced by the
querying directory; every other section is emitted unchanged. -/
def applyWorktreeRewrite (dir : GoStr) (m : SectionMatch) : Section :=
  if m.matchReason = .gitWorktree then
    ⟨replaceProjectPath m.sec.title dir, m.sec.content⟩
  else m.sec

/-- The section-level body of `filterContentByDir` (everything before
the final string join). -/
def filterSectionsByDir (ctx : Ctx) (content dir : GoStr) (isCursor : Bool) : List Section :=
  (selectMostSpecificMatches (collectMatches ctx (parseSections content) dir isCursor)).map
    (applyWorktreeRewrite dir)

/-- One kept section's contribution to the output: its title, then its
content when non-empty (`filterContentByDir`'s reconstruction loop). -/
def sectionPieces (s : Section) : List GoStr :=
  if s.content = [] then [s.title] else [s.title, s.content]

/-- The reconstruction step of `filterContentByDir`: titles and
non-empty contents, joined with newlines. -/
def joinPieces (sections : List Section) : GoStr :=
  joinWithNL (sections.flatMap sectionPieces)

/-- `filterContentByDir` from `parse.go`. -/
def filterContentByDir (ctx : Ctx) (content dir : GoStr) (isCursor : Bool) : GoStr :=
  joinPieces (filterSectionsByDir ctx content dir isCursor)

/-- Modelled from the spec: `InputMessage` (§3 data model).  The v2
struct carrying the `Exit` flag is not among the provided sources — the
v1 struct in `parse.go` lacks `Exit`, while the responder in
`src/unnamed/part_002` reads `msg.Exit` — so the field set follows the
spec: content, working directory, optional failure, exit flag. -/
structure InputMessage where
  content : GoStr
  workingDir : GoStr
  error : Option GoStr
  exit : Bool
deriving DecidableEq

/-- The outcome of the `select` in the first-message phase of
`handleRequest` (`src/unnamed/part_002`): a message arrives (`chanRecv`,
channel open), the channel is found closed, or one of the two deadline
timers fires first. -/
inductive FirstWaitEvent where
  | chanRecv (msg : InputMessage)
  | chanClosed
  | hardDeadline
  | idleDeadline
deriving DecidableEq

/-- The reply bodies `handleRequest` can produce, by kind; `wrapped`
records the inputs handed to the question-wrapping composer. -/
inductive ResponseBody where
  | exitBody
  | thinking
  | timeoutErr
  | chanClosedErr
  | errorJoined (errs : List GoStr)
  | wrapped (content workingDir : GoStr)
deriving DecidableEq

/-- An HTTP reply: status code and body kind. -/
structure Response where
  status : Nat
  body : ResponseBody
deriving DecidableEq

/-- What one iteration of the first-message wait decides: reply now,
hold the first real message, or loop and keep waiting. -/
inductive FirstPhaseOutcome where
  | respond (r : Response)
  | gotFirst (msg : InputMessage)
  | keepWaiting
deriving DecidableEq

/-- One iteration of the first-message `select` in `handleRequest`,
as a function of which event fired and of whether the terminal session
has content typed (`h.hasInputContent()` at that instant): a closed
channel is a 500, an exit message replies `exit`, the hard deadline is a
408, and the idle deadline replies the "still thinking" filler only when
nothing has been typed, otherwise the loop re-enters the wait. -/
def firstMessageStep (ev : FirstWaitEvent) (hasInputContent : Bool) : FirstPhaseOutcome :=
  match ev with
  | .chanRecv msg => if msg.exit then .respond ⟨200, .exitBody⟩ else .gotFirst msg
  | .chanClosed => .respond ⟨500, .chanClosedErr⟩
  | .hardDeadline => .respond ⟨408, .timeoutErr⟩
  | .idleDeadline => if !hasInputContent then .respond ⟨200, .thinking⟩ else .keepWaiting

/-- The working-directory fold of `handleRequest`: the client's query
value wins when non-empty, otherwise the first non-empty message
directory. -/
def computeFinalWd (q : GoStr) (msgs : List InputMessage) : GoStr :=
  msgs.foldl (fun wd m => if wd = [] then m.workingDir else wd) q

/-- The tail of `handleRequest` after the drain phase, over the full
message batch (first message plus drained ones): any exit message replies
`exit`; otherwise collected errors reply an error join; otherwise the
newline-joined contents are wrapped, or the "still thinking" filler is
sent when they are empty.  (The Go loop returns at the first exit
message; the reply is the same either way.) -/
def respondForMsgs (q : GoStr) (msgs : List InputMessage) : Response :=
  if msgs.any (·.exit) then ⟨200, .exitBody⟩
  else
    let finalWd := computeFinalWd q msgs
    let errors := msgs.filterMap (·.error)
    if errors ≠ [] then ⟨200, .errorJoined errors⟩
    else
      let content := joinWithNL (msgs.map (·.content))
      if content ≠ [] then ⟨200, .wrapped content finalWd⟩ else ⟨200, .thinking⟩

/-- `handleRequest` from `src/unnamed/part_002`, driven by the sequence
of first-phase events (each paired with the typed-content flag read at
that instant) and by the messages available to the non-blocking drain
phase; `none` models a responder still blocked because no event fired. -/
def handleRequestModel (q : GoStr) (events : List (FirstWaitEvent × Bool))
    (drained : List InputMessage) : Option Response :=
  match events with
  | [] => none
  | (ev, hc) :: rest =>
    match firstMessageStep ev hc with
    | .respond r => some r
    | .gotFirst m => some (respondForMsgs q (m :: drained))
    | .keepWaiting => handleRequestModel q rest drained

/-- The buffer size of the producer loop's message channel:
`make(chan InputMessage, 1)` in `startBackgroundInputLoop`
(`parse.go`, "Buffered to prevent blocking"). -/
def inputChanCapacity : Nat := 1

/-- Publishing one produced `InputMessage` to the bounded channel:
succeeds exactly while the buffer has room. -/
def publishToInputChan (q : List InputMessage) (m : InputMessage) :
    Option (List InputMessage) :=
  if q.length < inputChanCapacity then some (q ++ [m]) else none

/-- Timer control messages sent to the terminal session's program
(`enableTimerMsg` / `disableTimerMsg` in `input_model.go`). -/
inductive TimerMsg where
  | enable
  | disable
deriving DecidableEq

/-- The broker bookkeeping state of `serveHandler` (`parse.go`): the
connected-caller count, whether a terminal program is attached, and the
trace of timer messages sent so far. -/
structure ServeHandlerState where
  clientConn : Int
  program : Option Unit
  sent : List TimerMsg
deriving DecidableEq

/-- `notifyRequestAccepted` from `parse.go`: increment the count and,
when a program is attached, send the enable-timer message. -/
def notifyRequestAccepted (s : ServeHandlerState) : ServeHandlerState :=
  let s' := { s with clientConn := s.clientConn + 1 }
  match s'.program with
  | none => s'
  | some _ => { s' with sent := s'.sent ++ [.enable] }

/-- `notifyRequestFinished` from `parse.go`: decrement the count and,
when a program is attached and the count has reached zero, send the
disable-timer message. -/
def notifyRequestFinished (s : ServeHandlerState) : ServeHandlerState :=
  let s' := { s with clientConn := s.clientConn - 1 }
  match s'.program with
  | none => s'
  | some _ =>
    if s'.clientConn = 0 then { s' with sent := s'.sent ++ [.disable] } else s'

/-- `setProgram` from `parse.go`: attach or detach the program; on
attach, send disable when nobody is connected and enable otherwise. -/
def setProgram (p : Option Unit) (s : ServeHandlerState) : ServeHandlerState :=
  let s' := { s with program := p }
  match p with
  | none => s'
  | some _ =>
    if s'.clientConn = 0 then { s' with sent := s'.sent ++ [.disable] }
    else { s' with sent := s'.sent ++ [.enable] }

/-- The bookkeeping operations a running broker performs, as events:
request accepted, request finished, program attached/detached. -/
inductive BrokerEvent where
  | accept
  | finish
  | setProg (p : Option Unit)
deriving DecidableEq

/-- Apply one broker event. -/
def brokerStep (s : ServeHandlerState) : BrokerEvent → ServeHandlerState
  | .accept => notifyRequestAccepted s
  | .finish => notifyRequestFinished s
  | .setProg p => setProgram p s

/-- The zero-value `serveHandler` the server starts with. -/
def initialServeHandler : ServeHandlerState := ⟨0, none, []⟩

/-- Run a sequence of broker events from the initial state. -/
def runBroker (evs : List BrokerEvent) : ServeHandlerState :=
  evs.foldl brokerStep initialServeHandler

/-- Number of accepted requests in an event sequence. -/
def countAccept (evs : List BrokerEvent) : Nat :=
  evs.countP (fun e => decide (e = .accept))

/-- Number of finished requests in an event sequence. -/
def countFinish (evs : List BrokerEvent) : Nat :=
  evs.countP (fun e => decide (e = .finish))

/-- The pairing discipline the HTTP handler enforces (`handleServer`
in `src/unnamed/part_002` calls `notifyRequestAccepted` and defers
`notifyRequestFinished`): in every prefix of the event sequence, no
request finishes before it was accepted. -/
def wellPaired (evs : List BrokerEvent) : Bool :=
  (List.range (evs.length + 1)).all
    (fun n => decide (countFinish (evs.take n) ≤ countAccept (evs.take n)))

/-- `USE_BACKSLAHS` from `main.go`. -/
def USE_BACKSLAHS : Bool := false

/-- Result of the non-terminal input collector: a normal submission,
the distinguished `exit` abort, or end of input (a read error). -/
inductive NonTermResult where
  | submitted (lines : List GoStr)
  | exitAbort
  | eof
deriving DecidableEq

/-- The read loop of `readInputFromNonTerminal` (`readline.go`), over
the sequence of lines standard input delivers and the accumulated
buffer: blank lines are skipped; `exit` with an empty buffer aborts; a
trimmed line with the `END` suffix cut submits (the remainder is kept
when non-empty); `CLEAR` resets the buffer; anything else is
accumulated.  (The `USE_BACKSLAHS` branch models the disabled
backslash-continuation variant.) -/
def runNonTerminal : List GoStr → List GoStr → NonTermResult
  | [], _ => .eof
  | input :: rest, lines =>
    let inL := trimSpace input
    if inL = [] then runNonTerminal rest lines
    else if inL = gs "exit" ∧ lines = [] then .exitAbort
    else
      if !USE_BACKSLAHS then
        match goCutSuffix inL (gs "END") with
        | some pre => .submitted (if pre = [] then lines else lines ++ [pre])
        | none =>
          if inL = gs "CLEAR" then runNonTerminal rest []
          else runNonTerminal rest (lines ++ [inL])
      else
        let hasNextLine := goEndsWith inL (gs "\\")
        let inContent := if hasNextLine then inL.take (inL.length - 1) else inL
        if inContent = [] then runNonTerminal rest lines
        else if hasNextLine then runNonTerminal rest (lines ++ [inContent])
        else .submitted (lines ++ [inContent])

/-- `readInputFromNonTerminal` from `readline.go`, as a function of the
lines standard input delivers. -/
def readInputFromNonTerminal (input : List GoStr) : NonTermResult :=
  runNonTerminal input []

/-! ### Concrete capability contexts used by the claim instances -/

/-- A neutral context: no home directory, empty environment, no process
working directory, no glob library, no git relationships. -/
def ctx0 : Ctx :=
  { userHomeDir := none, expandEnv := id, getwd := none,
    globCompile := fun _ => none, isGitWorktree := fun _ _ => false }

/-- A context in which `/a/b/c` and `/x/y` are git-worktree related
(e.g. two checkouts with the same origin URL). -/
def ctxW : Ctx :=
  { ctx0 with isGitWorktree := fun a b => decide (a = gs "/a/b/c" ∧ b = gs "/x/y") }

/-- A context whose glob library compiles `/x/*` to a pattern matching
`/x/y` (as `gobwas/glob` with separator `/` does). -/
def ctxG : Ctx :=
  { ctx0 with
    globCompile := fun p =>
      if p = gs "/x/*" then some (fun s => decide (s = gs "/x/y")) else none }

/-- A context in which `/a/b` and `/x/y` are git-worktree related. -/
def ctxR : Ctx :=
  { ctx0 with isGitWorktree := fun a b => decide (a = gs "/a/b" ∧ b = gs "/x/y") }

/-! ### Claim C2 -/

/-- Claim C2: in the first-message phase of an accepted primary request,
the hard deadline firing first is answered with the 408 timeout error;
the idle deadline firing with nothing typed is answered with the
"still thinking" filler; and the idle deadline firing with content
already typed keeps the responder waiting for the first real message. -/
theorem C2_first_message_phase :
    (∀ (q : GoStr) (b : Bool) (rest : List (FirstWaitEvent × Bool)) (dr : List InputMessage),
        handleRequestModel q ((.hardDeadline, b) :: rest) dr = some ⟨408, .timeoutErr⟩)
    ∧ (∀ (q : GoStr) (rest : List (FirstWaitEvent × Bool)) (dr : List InputMessage),
        handleRequestModel q ((.idleDeadline, false) :: rest) dr = some ⟨200, .thinking⟩)
    ∧ (∀ (q : GoStr) (rest : List (FirstWaitEvent × Bool)) (dr : List InputMessage),
        handleRequestModel q ((.idleDeadline, true) :: rest) dr
          = handleRequestModel q rest dr) :=
  ⟨fun _ _ _ _ => rfl, fun _ _ _ => rfl, fun _ _ _ => rfl⟩

/-! ### Claim C5 -/

/-- Claim C5 (code bug): the direct literal-path test is a raw string
prefix test, so working directory `/a/bc` *is* accepted as a direct
match for the spec `/a/b` even though it is neither that directory nor a
subdirectory of it — contradicting the code's own comment and the
spec's segment-wise reading. -/
theorem C5_string_prefix_accepts_non_subdirectory :
    shouldIncludeSection ctx0 (gs "# T(project: /a/b)") (gs "/a/bc") true
      = ⟨true, .pathMatch, gs "/a/b", 2⟩ := by
  decide

/-! ### Claim C6 -/

/-- Claim C6 (counterexample): the producer loop's channel is created
with `make(chan InputMessage, 1)`, so its capacity is 1, not
approximately 100. -/
theorem C6_capacity_is_not_100 :
    inputChanCapacity = 1 ∧ inputChanCapacity ≠ 100 := by
  decide

/-- Claim C6 (amended): the producer loop publishes each completed
`InputMessage` to a bounded queue of capacity 1 ("buffered to prevent
blocking"); a successful publish never exceeds that bound. -/
theorem C6_bounded_queue_capacity_one :
    inputChanCapacity = 1
    ∧ ∀ (q : List InputMessage) (m : InputMessage) (q' : List InputMessage),
        publishToInputChan q m = some q' → q'.length ≤ inputChanCapacity := by
  refine ⟨rfl, fun q m q' h => ?_⟩
  by_cases hl : q.length < inputChanCapacity
  · simp only [publishToInputChan, if_pos hl] at h
    obtain rfl : q ++ [m] = q' := Option.some.inj h
    simp only [List.length_append, List.length_singleton]
    omega
  · simp only [publishToInputChan, if_neg hl] at h
    exact Option.noConfusion h

/-- Witness for C6: publishing to the empty queue succeeds and the
resulting queue respects the capacity bound. -/
theorem C6_bounded_queue_capacity_one_witness :
    ([(⟨[], [], none, false⟩ : InputMessage)]).length ≤ inputChanCapacity :=
  C6_bounded_queue_capacity_one.2 [] ⟨[], [], none, false⟩
    [⟨[], [], none, false⟩] rfl

/-! ### Claim C8 -/

/-- Claim C8 (counterexample): with content already accumulated, a line
equal to `exit` does **not** abort the fallback collector — it is
treated as ordinary content, and the session ends as a normal
submission containing it. -/
theorem C8_exit_after_content_is_not_abort :
    readInputFromNonTerminal [gs "hello", gs "exit", gs "END"]
        = .submitted [gs "hello", gs "exit"]
    ∧ readInputFromNonTerminal [gs "hello", gs "exit", gs "END"] ≠ .exitAbort := by
  decide

/-- Claim C8 (amended): the fallback collector honors the control
tokens as follows — a line whose trimmed form ends in `END` submits the
accumulated buffer with `END` stripped (the remainder of that line is
kept when non-empty); a line equal to `CLEAR` discards the buffer and
continues; and a line equal to `exit` aborts the session only when the
accumulated buffer is empty. -/
theorem C8_nonterminal_control_tokens :
    (∀ (l : GoStr) (rest acc : List GoStr) (pre : GoStr),
        goCutSuffix (trimSpace l) (gs "END") = some pre → trimSpace l ≠ [] →
        runNonTerminal (l :: rest) acc
          = .submitted (if pre = [] then acc else acc ++ [pre]))
    ∧ (∀ (l : GoStr) (rest acc : List GoStr), trimSpace l = gs "CLEAR" →
        runNonTerminal (l :: rest) acc = runNonTerminal rest [])
    ∧ (∀ (l : GoStr) (rest : List GoStr), trimSpace l = gs "exit" →
        runNonTerminal (l :: rest) [] = .exitAbort) := by
  refine ⟨fun l rest acc pre h hne => ?_, fun l rest acc h => ?_, fun l rest h => ?_⟩
  · have hx : ¬(trimSpace l = gs "exit" ∧ acc = []) := by
      rintro ⟨he, -⟩
      rw [he] at h
      have hnone : goCutSuffix (gs "exit") (gs "END") = none := by decide
      rw [hnone] at h
      exact Option.noConfusion h
    simp only [runNonTerminal, if_neg hne, if_neg hx, USE_BACKSLAHS, Bool.not_false]
    rw [if_pos trivial]
    simp only [h]
  · have h1 : trimSpace l ≠ [] := by rw [h]; decide
    have hx : ¬(trimSpace l = gs "exit" ∧ acc = []) := by
      rintro ⟨he, -⟩
      rw [h] at he
      exact absurd he (by decide)
    have hcut : goCutSuffix (trimSpace l) (gs "END") = none := by rw [h]; decide
    simp only [runNonTerminal, if_neg h1, if_neg hx, USE_BACKSLAHS, Bool.not_false]
    rw [if_pos trivial]
    simp only [hcut]
    rw [if_pos h]
  · have h1 : trimSpace l ≠ [] := by rw [h]; decide
    simp only [runNonTerminal, if_neg h1]
    rw [if_pos ⟨h, trivial⟩]

/-- Witness for C8: the three amended behaviors at concrete inputs. -/
theorem C8_nonterminal_control_tokens_witness :
    runNonTerminal [gs "abcEND"] [gs "x"] = .submitted [gs "x", gs "abc"]
    ∧ runNonTerminal [gs " CLEAR "] [gs "x"] = runNonTerminal [] []
    ∧ runNonTerminal [gs "exit"] [] = .exitAbort :=
  ⟨(C8_nonterminal_control_tokens.1 (gs "abcEND") [] [gs "x"] (gs "abc")
      (by decide) (by decide)).trans (by decide),
   C8_nonterminal_control_tokens.2.1 (gs " CLEAR ") [] [gs "x"] (by decide),
   C8_nonterminal_control_tokens.2.2 (gs "exit") [] (by decide)⟩

/-! ### Claim C9 -/

/-- `notifyRequestAccepted` increments the caller count by exactly 1. -/
theorem notifyRequestAccepted_clientConn (s : ServeHandlerState) :
    (notifyRequestAccepted s).clientConn = s.clientConn + 1 := by
  cases h : s.program <;> simp [notifyRequestAccepted, h]

/-- `notifyRequestFinished` decrements the caller count by exactly 1. -/
theorem notifyRequestFinished_clientConn (s : ServeHandlerState) :
    (notifyRequestFinished s).clientConn = s.clientConn - 1 := by
  cases h : s.program with
  | none => simp [notifyRequestFinished, h]
  | some u =>
    simp only [notifyRequestFinished, h]
    split <;> rfl

/-- `setProgram` leaves the caller count unchanged. -/
theorem setProgram_clientConn (p : Option Unit) (s : ServeHandlerState) :
    (setProgram p s).clientConn = s.clientConn := by
  cases p with
  | none => rfl
  | some u =>
    simp only [setProgram]
    split <;> rfl

/-- The caller count after a run is the initial count plus accepted
requests minus finished requests. -/
theorem brokerFold_clientConn (evs : List BrokerEvent) (s : ServeHandlerState) :
    (evs.foldl brokerStep s).clientConn
      = s.clientConn + (countAccept evs : Int) - (countFinish evs : Int) := by
  induction evs generalizing s with
  | nil => simp [countAccept, countFinish]
  | cons e t ih =>
    rw [List.foldl_cons, ih]
    cases e with
    | accept =>
      simp only [brokerStep, notifyRequestAccepted_clientConn, countAccept, countFinish,
        List.countP_cons]
      simp
      omega
    | finish =>
      simp only [brokerStep, notifyRequestFinished_clientConn, countAccept, countFinish,
        List.countP_cons]
      simp
      omega
    | setProg p =>
      simp only [brokerStep, setProgram_clientConn, countAccept, countFinish,
        List.countP_cons]
      simp

/-- Claim C9: under the pairing discipline of the HTTP handler (every
finish preceded by its accept), the connected-caller count is
non-negative in every reachable state; each accepted request increments
it by exactly one and each completed request decrements it by exactly
one; and with a terminal program attached, every accept (in particular
the 0→1 transition) sends the enable-timer signal, while a finish sends
the disable-timer signal exactly on the 1→0 transition. -/
theorem C9_connected_caller_count :
    (∀ evs : List BrokerEvent, wellPaired evs = true → 0 ≤ (runBroker evs).clientConn)
    ∧ (∀ s : ServeHandlerState, (notifyRequestAccepted s).clientConn = s.clientConn + 1)
    ∧ (∀ s : ServeHandlerState, (notifyRequestFinished s).clientConn = s.clientConn - 1)
    ∧ (∀ s : ServeHandlerState, s.program.isSome = true →
        (notifyRequestAccepted s).sent = s.sent ++ [TimerMsg.enable])
    ∧ (∀ s : ServeHandlerState, s.program.isSome = true → s.clientConn = 1 →
        (notifyRequestFinished s).sent = s.sent ++ [TimerMsg.disable])
    ∧ (∀ s : ServeHandlerState, s.program.isSome = true → s.clientConn ≠ 1 →
        (notifyRequestFinished s).sent = s.sent) := by
  refine ⟨fun evs h => ?_, notifyRequestAccepted_clientConn,
    notifyRequestFinished_clientConn, fun s hp => ?_, fun s hp hc => ?_, fun s hp hc => ?_⟩
  · have hmem : evs.length ∈ List.range (evs.length + 1) :=
      List.mem_range.mpr (Nat.lt_succ_self _)
    have hd := List.all_eq_true.mp h _ hmem
    have hle : countFinish (evs.take evs.length) ≤ countAccept (evs.take evs.length) :=
      of_decide_eq_true hd
    rw [List.take_length] at hle
    rw [runBroker, brokerFold_clientConn]
    simp only [initialServeHandler]
    omega
  · obtain ⟨u, hu⟩ := Option.isSome_iff_exists.mp hp
    simp [notifyRequestAccepted, hu]
  · obtain ⟨u, hu⟩ := Option.isSome_iff_exists.mp hp
    simp only [notifyRequestFinished, hu]
    rw [if_pos (by omega)]
  · obtain ⟨u, hu⟩ := Option.isSome_iff_exists.mp hp
    simp only [notifyRequestFinished, hu]
    rw [if_neg (by omega)]

/-- Witness for C9: a concrete paired trace has a non-negative count,
and a finish from count 1 with a program attached sends disable. -/
theorem C9_connected_caller_count_witness :
    0 ≤ (runBroker [.accept, .finish]).clientConn
    ∧ (notifyRequestFinished ⟨1, some (), []⟩).sent = [] ++ [TimerMsg.disable] :=
  ⟨C9_connected_caller_count.1 [.accept, .finish] (by decide),
   C9_connected_caller_count.2.2.2.2.1 ⟨1, some (), []⟩ rfl rfl⟩

/-! ### Claim C10 -/

/-- Whether a line opens a section, given the fence state before it:
the post-toggle state must be outside a fence and the raw line must
start with `#` (`parseSections`). -/
def recognizedHeading (b : Bool) (l : GoStr) : Bool :=
  !(fenceStep b l) && goStartsWith l (gs "#")

/-- Fence state after a sequence of lines. -/
def fenceFold (b : Bool) (ls : List GoStr) : Bool := ls.foldl fenceStep b

/-- Whether any line of the sequence is recognized as a heading when
scanned from fence state `b`. -/
def anyHeadingFrom (b : Bool) : List GoStr → Bool
  | [] => false
  | l :: ls => recognizedHeading b l || anyHeadingFrom (fenceStep b l) ls

/-- Lines processed while no section is open and never recognized as
headings are discarded: they influence only the fence state. -/
theorem parseSectionsAux_discard (pre : List GoStr) (b : Bool) (rest : List GoStr)
    (h : anyHeadingFrom b pre = false) :
    parseSectionsAux (pre ++ rest) none b = parseSectionsAux rest none (fenceFold b pre) := by
  induction pre generalizing b with
  | nil => simp [fenceFold]
  | cons l t ih =>
    simp only [anyHeadingFrom, Bool.or_eq_false_iff] at h
    obtain ⟨h1, h2⟩ := h
    simp only [List.cons_append, parseSectionsAux]
    rw [if_neg (by simp only [recognizedHeading] at h1; simp [h1])]
    simp only [Option.map_none', List.append_eq]
    rw [ih _ h2]
    simp [fenceFold]

/-- Claim C10: every line preceding the first heading of the document
is silently discarded — the parser output over such a prefix equals the
output over the remainder alone (the prefix contributing only fence
state) — and a document with no heading line at all (outside code
fences) parses to no sections, so its filtered output is the empty
string for every context, directory and flavor. -/
theorem C10_preheading_lines_discarded :
    (∀ pre rest : List GoStr, anyHeadingFrom false pre = false →
        parseSectionsAux (pre ++ rest) none false
          = parseSectionsAux rest none (fenceFold false pre))
    ∧ (∀ content : GoStr, anyHeadingFrom false (splitGo '\n' content) = false →
        parseSections content = []
        ∧ ∀ (ctx : Ctx) (dir : GoStr) (isCursor : Bool),
            filterContentByDir ctx content dir isCursor = []) := by
  refine ⟨fun pre rest h => parseSectionsAux_discard pre false rest h, fun content h => ?_⟩
  have hparse : parseSections content = [] := by
    have := parseSectionsAux_discard (splitGo '\n' content) false [] h
    rw [List.append_nil] at this
    rw [parseSections, this]
    rfl
  refine ⟨hparse, fun ctx dir isCursor => ?_⟩
  rw [filterContentByDir, filterSectionsByDir, hparse]
  rfl

/-- Witness for C10: a concrete heading-free document parses to no
sections and filters to the empty string. -/
theorem C10_preheading_lines_discarded_witness :
    parseSections (gs "just text\nmore text") = []
    ∧ filterContentByDir ctx0 (gs "just text\nmore text") (gs "/a") true = [] :=
  ⟨(C10_preheading_lines_discarded.2 (gs "just text\nmore text") (by decide)).1,
   (C10_preheading_lines_discarded.2 (gs "just text\nmore text") (by decide)).2
     ctx0 (gs "/a") true⟩

/-! ### Split/join infrastructure for the re-parse argument -/

theorem splitGo_ne_nil (sep : Char) (s : GoStr) : splitGo sep s ≠ [] := by
  cases s with
  | nil => simp [splitGo]
  | cons c rest =>
    simp only [splitGo]
    split
    · simp
    · split
      · simp
      · simp

theorem not_mem_of_mem_splitGo (sep : Char) (s : GoStr) :
    ∀ l ∈ splitGo sep s, sep ∉ l := by
  induction s with
  | nil =>
    intro l hl
    simp only [splitGo, List.mem_singleton] at hl
    simp [hl]
  | cons c rest ih =>
    intro l hl
    simp only [splitGo] at hl
    by_cases hc : c = sep
    · rw [if_pos hc] at hl
      rcases List.mem_cons.mp hl with h | h
      · simp [h]
      · exact ih l h
    · rw [if_neg hc] at hl
      rcases hsp : splitGo sep rest with _ | ⟨l0, ls⟩
      · exact absurd hsp (splitGo_ne_nil sep rest)
      · rw [hsp] at hl
        rcases List.mem_cons.mp hl with h | h
        · subst h
          intro hmem
          rcases List.mem_cons.mp hmem with h' | h'
          · exact hc h'.symm
          · exact ih l0 (by rw [hsp]; exact List.mem_cons_self _ _) h'
        · exact ih l (by rw [hsp]; exact List.mem_cons_of_mem _ h)

theorem splitGo_append_sep (sep : Char) (x y : GoStr) :
    splitGo sep (x ++ sep :: y) = splitGo sep x ++ splitGo sep y := by
  induction x with
  | nil => simp [splitGo]
  | cons c x' ih =>
    by_cases hc : c = sep
    · simp only [List.cons_append, splitGo, if_pos hc, List.append_eq, ih]
    · rcases hsp : splitGo sep x' with _ | ⟨l0, ls⟩
      · exact absurd hsp (splitGo_ne_nil sep x')
      · simp only [List.cons_append, splitGo, if_neg hc, List.append_eq, ih, hsp,
          List.cons_append]

theorem splitGo_of_not_mem (sep : Char) (s : GoStr) (h : sep ∉ s) :
    splitGo sep s = [s] := by
  induction s with
  | nil => simp [splitGo]
  | cons c rest ih =>
    simp only [List.mem_cons, not_or] at h
    have hc : ¬(c = sep) := fun hcc => h.1 hcc.symm
    simp only [splitGo, ih h.2]
    rw [if_neg hc]

theorem joinWithNL_cons_cons (a : GoStr) (b : GoStr) (xs : List GoStr) :
    joinWithNL (a :: b :: xs) = a ++ '\n' :: joinWithNL (b :: xs) := rfl

theorem joinWithNL_splitGo (s : GoStr) : joinWithNL (splitGo '\n' s) = s := by
  induction s with
  | nil => rfl
  | cons c rest ih =>
    by_cases hc : c = '\n'
    · subst hc
      show joinWithNL ([] :: splitGo '\n' rest) = '\n' :: rest
      rcases hsp : splitGo '\n' rest with _ | ⟨l0, ls⟩
      · exact absurd hsp (splitGo_ne_nil '\n' rest)
      · rw [hsp] at ih
        rw [joinWithNL_cons_cons, ih]
        rfl
    · rcases hsp : splitGo '\n' rest with _ | ⟨l0, ls⟩
      · exact absurd hsp (splitGo_ne_nil '\n' rest)
      · rw [hsp] at ih
        have hred : splitGo '\n' (c :: rest) = (c :: l0) :: ls := by
          simp only [splitGo, hsp]
          rw [if_neg hc]
        rw [hred]
        cases ls with
        | nil =>
          simp only [joinWithNL] at ih ⊢
          rw [ih]
        | cons l1 ls' =>
          rw [joinWithNL_cons_cons] at ih ⊢
          rw [List.cons_append, ih]

theorem splitGo_joinWithNL (ps : List GoStr) (hne : ps ≠ []) :
    splitGo '\n' (joinWithNL ps) = ps.flatMap (splitGo '\n') := by
  induction ps with
  | nil => exact absurd rfl hne
  | cons p rest ih =>
    cases rest with
    | nil => simp [joinWithNL, List.flatMap]
    | cons q rest' =>
      rw [joinWithNL_cons_cons, splitGo_append_sep, ih (by simp)]
      simp [List.flatMap]

/-- The lines of a section body as the parser reconstructs them:
none for an empty body, otherwise its newline split. -/
def contentLines (c : GoStr) : List GoStr :=
  if c = [] then [] else splitGo '\n' c

/-- The lines a kept section contributes to the reassembled output. -/
def pieceLines (s : Section) : List GoStr :=
  s.title :: contentLines s.content

theorem sectionPieces_ne_nil (s : Section) : sectionPieces s ≠ [] := by
  by_cases hc : s.content = [] <;> simp [sectionPieces, hc]

theorem splitGo_sectionPieces (s : Section) (ht : '\n' ∉ s.title) :
    (sectionPieces s).flatMap (splitGo '\n') = pieceLines s := by
  by_cases hc : s.content = [] <;>
    simp [sectionPieces, pieceLines, contentLines, hc, splitGo_of_not_mem _ _ ht]

theorem splitGo_joinPieces (secs : List Section) (hne : secs ≠ [])
    (ht : ∀ s ∈ secs, '\n' ∉ s.title) :
    splitGo '\n' (joinPieces secs) = secs.flatMap pieceLines := by
  have hpne : secs.flatMap sectionPieces ≠ [] := by
    rcases secs with _ | ⟨s, rest⟩
    · exact absurd rfl hne
    · intro h
      simp only [List.flatMap_cons] at h
      exact sectionPieces_ne_nil s (List.append_eq_nil.mp h).1
  rw [joinPieces, splitGo_joinWithNL _ hpne, List.flatMap_assoc]
  exact List.flatMap_congr fun s hs => splitGo_sectionPieces s (ht s hs)

/-! ### Well-formedness of parsed sections -/

/-- Invariants every section emitted by `parseSections` satisfies: the
title is a `#`-headed single line, the body never starts with a newline
(the parser drops leading empty lines), and no body line is recognized
as a heading when its lines are re-scanned from a closed fence. -/
structure SectionWF (s : Section) : Prop where
  headMark : goStartsWith s.title (gs "#") = true
  titleNoNL : '\n' ∉ s.title
  contentWF : s.content = [] ∨ s.content.head? ≠ some '\n'
  noHead : anyHeadingFrom false (contentLines s.content) = false

/-- Chain invariant of a parsed section list: each section is
well-formed, and every section except possibly the last closes its code
fences (its body toggles the fence state back to closed). -/
def sectionsWF : List Section → Prop
  | [] => True
  | s :: rest =>
    SectionWF s ∧ sectionsWF rest
      ∧ (rest = [] ∨ fenceFold false (contentLines s.content) = false)

theorem sectionsWF_forall {l : List Section} (h : sectionsWF l) :
    ∀ s ∈ l, SectionWF s := by
  induction l with
  | nil => intro s hs; exact absurd hs (List.not_mem_nil s)
  | cons a t ih =>
    intro s hs
    rcases List.mem_cons.mp hs with rfl | hs'
    · exact h.1
    · exact ih h.2.1 s hs'

theorem sectionsWF_sublist {l l' : List Section} (h : sectionsWF l)
    (hs : List.Sublist l' l) : sectionsWF l' := by
  induction hs with
  | slnil => trivial
  | cons a _ ih => exact ih h.2.1
  | cons₂ a hsub ih =>
    refine ⟨h.1, ih h.2.1, ?_⟩
    rcases h.2.2 with hnil | hpar
    · subst hnil
      exact Or.inl (List.sublist_nil.mp hsub)
    · exact Or.inr hpar

theorem goStartsWith_hash (l : GoStr) (h : goStartsWith l (gs "#") = true) :
    ∃ t, l = '#' :: t := by
  cases l with
  | nil => simp [goStartsWith, gs, List.isPrefixOf] at h
  | cons c t =>
    refine ⟨t, ?_⟩
    simp only [goStartsWith, gs, List.isPrefixOf, Bool.and_eq_true, beq_iff_eq] at h
    rw [h.1]

theorem dropWhile_append_hash (u : List Char) :
    ∃ v, (u ++ ['#']).dropWhile isSpaceChar = v ++ ['#'] := by
  induction u with
  | nil => exact ⟨[], rfl⟩
  | cons c u' ih =>
    by_cases hc : isSpaceChar c = true
    · simpa [List.dropWhile, hc] using ih
    · exact ⟨c :: u', by simp [List.dropWhile, hc]⟩

theorem trimSpace_hash (t : GoStr) : ∃ z, trimSpace ('#' :: t) = '#' :: z := by
  have h1 : ('#' :: t).dropWhile isSpaceChar = '#' :: t := by
    simp [List.dropWhile, isSpaceChar]
  rw [trimSpace, h1]
  have h2 : ('#' :: t).reverse = t.reverse ++ ['#'] := by simp
  rw [h2]
  obtain ⟨v, hv⟩ := dropWhile_append_hash t.reverse
  rw [hv]
  exact ⟨v.reverse, by simp⟩

theorem fenceStep_of_hash (l : GoStr) (b : Bool)
    (h : goStartsWith l (gs "#") = true) : fenceStep b l = b := by
  obtain ⟨t, rfl⟩ := goStartsWith_hash l h
  obtain ⟨z, hz⟩ := trimSpace_hash t
  rw [fenceStep, hz]
  rw [if_neg]
  intro hpre
  simp only [goStartsWith, fenceMarker, List.isPrefixOf, Bool.and_eq_true, beq_iff_eq] at hpre
  exact absurd hpre.1 (by decide)

theorem fenceStep_nil (b : Bool) : fenceStep b [] = b := by
  rw [fenceStep, if_neg]
  intro hpre
  simp [goStartsWith, trimSpace, fenceMarker, List.isPrefixOf] at hpre

theorem fenceFold_append_singleton (b : Bool) (xs : List GoStr) (l : GoStr) :
    fenceFold b (xs ++ [l]) = fenceStep (fenceFold b xs) l := by
  simp [fenceFold, List.foldl_append]

theorem anyHeadingFrom_append (b : Bool) (xs ys : List GoStr) :
    anyHeadingFrom b (xs ++ ys)
      = (anyHeadingFrom b xs || anyHeadingFrom (fenceFold b xs) ys) := by
  induction xs generalizing b with
  | nil => simp [anyHeadingFrom, fenceFold]
  | cons x xs' ih =>
    simp only [List.cons_append, anyHeadingFrom, List.append_eq, ih, fenceFold,
      List.foldl_cons, Bool.or_assoc]

theorem contentLines_appendLine (c l : GoStr) (hl : '\n' ∉ l) :
    contentLines (appendLine c l)
      = if c = [] ∧ l = [] then [] else contentLines c ++ [l] := by
  by_cases hc : c = []
  · subst hc
    by_cases hll : l = []
    · simp [appendLine, contentLines, hll]
    · simp [appendLine, contentLines, hll, splitGo_of_not_mem _ _ hl]
  · have happ : appendLine c l = c ++ '\n' :: l := by rw [appendLine, if_neg hc]
    have hne : c ++ '\n' :: l ≠ [] := by simp
    rw [happ, contentLines, if_neg hne, splitGo_append_sep,
      splitGo_of_not_mem _ _ hl, contentLines, if_neg hc]
    rw [if_neg]
    rintro ⟨h1, -⟩
    exact hc h1

theorem head?_append_of_ne_nil (c x : GoStr) (hc : c ≠ []) :
    (c ++ x).head? = c.head? := by
  cases c with
  | nil => exact absurd rfl hc
  | cons a t => rfl

/-- One non-heading line appended to an open section preserves the
section invariants and tracks the fence state. -/
theorem SectionWF_appendLine (t c l : GoStr) (b : Bool)
    (hWF : SectionWF ⟨t, c⟩) (hf : fenceFold false (contentLines c) = b)
    (hl : '\n' ∉ l) (hr : recognizedHeading b l = false) :
    SectionWF ⟨t, appendLine c l⟩
      ∧ fenceFold false (contentLines (appendLine c l)) = fenceStep b l := by
  by_cases hcl : c = [] ∧ l = []
  · obtain ⟨hc, hll⟩ := hcl
    subst hc; subst hll
    refine ⟨⟨hWF.headMark, hWF.titleNoNL, Or.inl rfl, hWF.noHead⟩, ?_⟩
    simp only [appendLine, if_pos rfl]
    rw [fenceStep_nil]
    exact hf
  · have hcl' := contentLines_appendLine c l hl
    rw [if_neg hcl] at hcl'
    refine ⟨⟨hWF.headMark, hWF.titleNoNL, ?_, ?_⟩, ?_⟩
    · by_cases hc : c = []
      · subst hc
        have hlne : l ≠ [] := fun h => hcl ⟨rfl, h⟩
        right
        show (appendLine [] l).head? ≠ some '\n'
        have : appendLine [] l = l := by rw [appendLine, if_pos rfl]
        rw [this]
        cases l with
        | nil => exact absurd rfl hlne
        | cons a t' =>
          simp only [List.head?_cons, ne_eq, Option.some.injEq]
          intro h
          exact hl (by rw [h]; exact List.mem_cons_self _ _)
      · right
        have happ : appendLine c l = c ++ '\n' :: l := by rw [appendLine, if_neg hc]
        rw [happ, head?_append_of_ne_nil c _ hc]
        rcases hWF.contentWF with h | h
        · exact absurd h hc
        · exact h
    · show anyHeadingFrom false (contentLines (appendLine c l)) = false
      rw [hcl', anyHeadingFrom_append, hWF.noHead, hf]
      simp [anyHeadingFrom, hr]
    · rw [hcl', fenceFold_append_singleton, hf]

/-- Everything `parseSectionsAux` emits is a well-formed chain, given
well-formedness of the open section. -/
theorem parseSectionsAux_WF (ls : List GoStr) (cur : Option Section) (b : Bool)
    (hls : ∀ l ∈ ls, '\n' ∉ l)
    (hcur : match cur with
      | none => True
      | some c => SectionWF c ∧ fenceFold false (contentLines c.content) = b) :
    sectionsWF (parseSectionsAux ls cur b) := by
  induction ls generalizing cur b with
  | nil =>
    cases cur with
    | none => trivial
    | some c => exact ⟨hcur.1, trivial, Or.inl rfl⟩
  | cons l t ih =>
    have hlnl : '\n' ∉ l := hls l (List.mem_cons_self l t)
    have hlt : ∀ x ∈ t, '\n' ∉ x := fun x hx => hls x (List.mem_cons_of_mem l hx)
    by_cases hr : (!(fenceStep b l) && goStartsWith l (gs "#")) = true
    · have hr' := hr
      rw [Bool.and_eq_true] at hr'
      have hstart : goStartsWith l (gs "#") = true := hr'.2
      have hb' : fenceStep b l = false := by
        have h1 := hr'.1
        simp only [Bool.not_eq_true'] at h1
        exact h1
      have hbfalse : b = false := by rw [← fenceStep_of_hash l b hstart]; exact hb'
      have hinv : SectionWF (⟨l, []⟩ : Section)
          ∧ fenceFold false (contentLines (⟨l, []⟩ : Section).content) = fenceStep b l := by
        refine ⟨⟨hstart, hlnl, Or.inl rfl, by simp [contentLines, anyHeadingFrom]⟩, ?_⟩
        simp [contentLines, fenceFold, hb']
      cases cur with
      | none =>
        simp only [parseSectionsAux, if_pos hr, List.nil_append]
        exact ih (some ⟨l, []⟩) (fenceStep b l) hlt hinv
      | some c =>
        simp only [parseSectionsAux, if_pos hr, List.cons_append, List.nil_append]
        refine ⟨hcur.1, ih (some ⟨l, []⟩) (fenceStep b l) hlt hinv, Or.inr ?_⟩
        rw [hcur.2, hbfalse]
    · cases cur with
      | none =>
        simp only [parseSectionsAux, if_neg hr, Option.map_none']
        exact ih none (fenceStep b l) hlt trivial
      | some c =>
        simp only [parseSectionsAux, if_neg hr, Option.map_some']
        have hrec : recognizedHeading b l = false := by
          simp only [recognizedHeading]
          cases hx : (!(fenceStep b l) && goStartsWith l (gs "#")) with
          | false => rfl
          | true => exact absurd hx hr
        obtain ⟨hwf', hf'⟩ :=
          SectionWF_appendLine c.title c.content l b ⟨hcur.1.headMark, hcur.1.titleNoNL,
            hcur.1.contentWF, hcur.1.noHead⟩ hcur.2 hlnl hrec
        exact ih (some ⟨c.title, appendLine c.content l⟩) (fenceStep b l) hlt ⟨hwf', hf'⟩

/-! ### Re-parsing the reassembled output -/

/-- Lines that are never recognized as headings are replayed into the
open section's body, tracking the fence state. -/
theorem parseSectionsAux_replay (ls rest : List GoStr) (t c : GoStr) (b : Bool)
    (h : anyHeadingFrom b ls = false) :
    parseSectionsAux (ls ++ rest) (some ⟨t, c⟩) b
      = parseSectionsAux rest (some ⟨t, ls.foldl appendLine c⟩) (fenceFold b ls) := by
  induction ls generalizing c b with
  | nil => simp [fenceFold]
  | cons l ls' ih =>
    simp only [anyHeadingFrom, Bool.or_eq_false_iff] at h
    obtain ⟨h1, h2⟩ := h
    simp only [List.cons_append, parseSectionsAux]
    rw [if_neg (by simp only [recognizedHeading] at h1; simp [h1])]
    simp only [Option.map_some', List.append_eq]
    rw [ih _ _ h2]
    simp [fenceFold]

theorem appendLine_nil_left (x : GoStr) : appendLine [] x = x := by
  rw [appendLine, if_pos rfl]

theorem joinWithNL_cons_append (a b : GoStr) (xs : List GoStr) :
    joinWithNL ((a ++ '\n' :: b) :: xs) = a ++ '\n' :: joinWithNL (b :: xs) := by
  cases xs with
  | nil => rfl
  | cons y ys =>
    rw [joinWithNL_cons_cons, joinWithNL_cons_cons]
    simp

theorem foldl_appendLine_ne (xs : List GoStr) (x₁ : GoStr) (hx : x₁ ≠ []) :
    xs.foldl appendLine x₁ = joinWithNL (x₁ :: xs) := by
  induction xs generalizing x₁ with
  | nil => rfl
  | cons x xs' ih =>
    have hstep : appendLine x₁ x = x₁ ++ '\n' :: x := by rw [appendLine, if_neg hx]
    rw [List.foldl_cons, hstep, ih _ (by simp), joinWithNL_cons_append,
      joinWithNL_cons_cons]

theorem splitGo_head_ne_nil (c : GoStr) (hne : c ≠ []) (hh : c.head? ≠ some '\n') :
    ∃ x₁ xs, splitGo '\n' c = x₁ :: xs ∧ x₁ ≠ [] := by
  cases c with
  | nil => exact absurd rfl hne
  | cons a t =>
    have ha : ¬(a = '\n') := by
      intro h
      exact hh (by rw [h]; rfl)
    rcases hsp : splitGo '\n' t with _ | ⟨l0, ls⟩
    · exact absurd hsp (splitGo_ne_nil '\n' t)
    · refine ⟨a :: l0, ls, ?_, by simp⟩
      simp only [splitGo, hsp]
      rw [if_neg ha]

/-- Replaying a parsed body's lines from an empty body rebuilds exactly
that body (the leading-empty-line drop already happened when it was
first parsed). -/
theorem foldl_appendLine_contentLines (c : GoStr)
    (hWF : c = [] ∨ c.head? ≠ some '\n') :
    (contentLines c).foldl appendLine [] = c := by
  rcases hWF with rfl | hh
  · rfl
  · by_cases hne : c = []
    · subst hne; rfl
    · obtain ⟨x₁, xs, hsp, hx₁⟩ := splitGo_head_ne_nil c hne hh
      rw [contentLines, if_neg hne, hsp, List.foldl_cons, appendLine_nil_left,
        foldl_appendLine_ne xs x₁ hx₁, ← hsp]
      have : joinWithNL (splitGo '\n' c) = c := joinWithNL_splitGo c
      exact this

/-- Opening a new section at a well-formed section's heading and
replaying its body: the open section is flushed and the section is
rebuilt, leaving the fence state its body produces. -/
theorem parseSectionsAux_head_some (s c : Section) (X : List GoStr)
    (hs : SectionWF s) :
    parseSectionsAux (pieceLines s ++ X) (some c) false
      = c :: parseSectionsAux X (some s) (fenceFold false (contentLines s.content)) := by
  have hfs : fenceStep false s.title = false := fenceStep_of_hash _ _ hs.headMark
  have hcond : (!(fenceStep false s.title) && goStartsWith s.title (gs "#")) = true := by
    rw [hfs, hs.headMark]
    rfl
  have hsplit : pieceLines s ++ X = s.title :: (contentLines s.content ++ X) := rfl
  rw [hsplit]
  simp only [parseSectionsAux]
  rw [if_pos hcond, hfs]
  show c :: parseSectionsAux (contentLines s.content ++ X) (some ⟨s.title, []⟩) false = _
  rw [parseSectionsAux_replay _ _ _ _ _ hs.noHead,
    foldl_appendLine_contentLines _ hs.contentWF]

/-- Variant of `parseSectionsAux_head_some` with no open section. -/
theorem parseSectionsAux_head_none (s : Section) (X : List GoStr)
    (hs : SectionWF s) :
    parseSectionsAux (pieceLines s ++ X) none false
      = parseSectionsAux X (some s) (fenceFold false (contentLines s.content)) := by
  have hfs : fenceStep false s.title = false := fenceStep_of_hash _ _ hs.headMark
  have hcond : (!(fenceStep false s.title) && goStartsWith s.title (gs "#")) = true := by
    rw [hfs, hs.headMark]
    rfl
  have hsplit : pieceLines s ++ X = s.title :: (contentLines s.content ++ X) := rfl
  rw [hsplit]
  simp only [parseSectionsAux]
  rw [if_pos hcond, hfs]
  show parseSectionsAux (contentLines s.content ++ X) (some ⟨s.title, []⟩) false = _
  rw [parseSectionsAux_replay _ _ _ _ _ hs.noHead,
    foldl_appendLine_contentLines _ hs.contentWF]

/-- Re-parsing the concatenated lines of a well-formed chain with an
already-open section reproduces the open section followed by the
chain. -/
theorem parseSectionsAux_pieces (kept : List Section) (c : Section)
    (hWF : sectionsWF kept) :
    parseSectionsAux (kept.flatMap pieceLines) (some c) false = c :: kept := by
  induction kept generalizing c with
  | nil => rfl
  | cons s rest ih =>
    obtain ⟨hs, hrest, hpar⟩ := hWF
    have hflat : (s :: rest).flatMap pieceLines
        = pieceLines s ++ rest.flatMap pieceLines := rfl
    rw [hflat, parseSectionsAux_head_some s c _ hs]
    cases rest with
    | nil => rfl
    | cons r rest' =>
      rcases hpar with hnil | hf
      · exact absurd hnil (by simp)
      · rw [hf, ih s hrest]

/-- Re-parsing the reassembled output of a well-formed chain yields the
chain itself. -/
theorem parseSections_joinPieces (kept : List Section) (hWF : sectionsWF kept) :
    parseSections (joinPieces kept) = kept := by
  cases kept with
  | nil => rfl
  | cons s rest =>
    have ht : ∀ x ∈ s :: rest, '\n' ∉ x.title :=
      fun x hx => (sectionsWF_forall hWF x hx).titleNoNL
    rw [parseSections, splitGo_joinPieces _ (by simp) ht]
    obtain ⟨hs, hrest, hpar⟩ := hWF
    have hflat : (s :: rest).flatMap pieceLines
        = pieceLines s ++ rest.flatMap pieceLines := rfl
    rw [hflat, parseSectionsAux_head_none s _ hs]
    cases rest with
    | nil => rfl
    | cons r rest' =>
      rcases hpar with hnil | hf
      · exact absurd hnil (by simp)
      · rw [hf, parseSectionsAux_pieces _ s hrest]

/-! ### Properties of the match-collection and selection steps -/

theorem mem_collectMatches {ctx : Ctx} {secs : List Section} {dir : GoStr} {cu : Bool}
    {m : SectionMatch} (h : m ∈ collectMatches ctx secs dir cu) :
    m.sec ∈ secs
    ∧ shouldIncludeSection ctx m.sec.title dir cu
        = ⟨true, m.matchReason, m.projectPath, m.specificity⟩ := by
  obtain ⟨s, hs, hsome⟩ := List.mem_filterMap.mp h
  rcases hres : shouldIncludeSection ctx s.title dir cu with ⟨inc, rsn, pp, sp⟩
  rw [hres] at hsome
  simp only at hsome
  cases inc with
  | false => exact absurd hsome (by simp)
  | true =>
    obtain rfl := (Option.some.inj hsome).symm
    exact ⟨hs, hres⟩

theorem collectMatches_map_sec (ctx : Ctx) (secs : List Section) (dir : GoStr) (cu : Bool) :
    (collectMatches ctx secs dir cu).map (·.sec)
      = secs.filter (fun s => (shouldIncludeSection ctx s.title dir cu).included) := by
  induction secs with
  | nil => rfl
  | cons s t ih =>
    rcases hres : shouldIncludeSection ctx s.title dir cu with ⟨inc, rsn, pp, sp⟩
    cases inc with
    | false =>
      simp only [collectMatches, List.filterMap_cons, hres, List.filter_cons] at *
      simp only [Bool.false_eq_true, if_false] at *
      exact ih
    | true =>
      simp only [collectMatches, List.filterMap_cons, hres, List.filter_cons] at *
      simp only [if_true, List.map_cons] at *
      rw [ih]

theorem collectMatches_of_faithful (ctx : Ctx) (dir : GoStr) (cu : Bool)
    (ms : List SectionMatch)
    (h : ∀ m ∈ ms, shouldIncludeSection ctx m.sec.title dir cu
        = ⟨true, m.matchReason, m.projectPath, m.specificity⟩) :
    collectMatches ctx (ms.map (·.sec)) dir cu = ms := by
  induction ms with
  | nil => rfl
  | cons m t ih =>
    have hm := h m (List.mem_cons_self m t)
    simp only [List.map_cons, collectMatches, List.filterMap_cons, hm]
    simp only [if_true]
    have heta : (⟨m.sec, m.matchReason, m.projectPath, m.specificity⟩ : SectionMatch) = m := rfl
    rw [heta]
    have ih' := ih (fun x hx => h x (List.mem_cons_of_mem m hx))
    simp only [collectMatches] at ih'
    rw [ih']

theorem collectMatches_det {ctx : Ctx} {secs : List Section} {dir : GoStr} {cu : Bool}
    {m m' : SectionMatch} (hm : m ∈ collectMatches ctx secs dir cu)
    (hm' : m' ∈ collectMatches ctx secs dir cu) (hsec : m.sec = m'.sec) : m = m' := by
  have h1 := (mem_collectMatches hm).2
  have h2 := (mem_collectMatches hm').2
  rw [hsec] at h1
  have h3 := h1.symm.trans h2
  simp only [IncludeResult.mk.injEq] at h3
  obtain ⟨-, hr, hp, hsp⟩ := h3
  rcases hmm : m with ⟨sec1, r1, p1, s1⟩
  rcases hmm' : m' with ⟨sec2, r2, p2, s2⟩
  rw [hmm, hmm'] at hsec
  rw [hmm, hmm'] at hr hp hsp
  simp only [SectionMatch.mk.injEq] at *
  exact ⟨hsec, hr, hp, hsp⟩

/-- The partition test for no-project matches. -/
def isNP (m : SectionMatch) : Bool := decide (m.matchReason = .noProject)

/-- The partition test for glob matches. -/
def isGL (m : SectionMatch) : Bool := decide (m.matchReason = .globMatch)

/-- The partition test for exact matches (everything else, i.e. path
and git-worktree matches). -/
def isEX (m : SectionMatch) : Bool := !isNP m && !isGL m

theorem foldl_partitionStep (ms np ex gl : List SectionMatch) :
    ms.foldl partitionStep (np, ex, gl)
      = (np ++ ms.filter isNP, ex ++ ms.filter isEX, gl ++ ms.filter isGL) := by
  induction ms generalizing np ex gl with
  | nil => simp
  | cons m t ih =>
    rw [List.foldl_cons]
    by_cases h1 : m.matchReason = .noProject
    · have hstep : partitionStep (np, ex, gl) m = (np ++ [m], ex, gl) := by
        simp [partitionStep, h1]
      rw [hstep, ih]
      simp [List.filter_cons, isNP, isEX, isGL, h1]
    · by_cases h2 : m.matchReason = .globMatch
      · have hstep : partitionStep (np, ex, gl) m = (np, ex, gl ++ [m]) := by
          simp [partitionStep, h1, h2]
        rw [hstep, ih]
        simp [List.filter_cons, isNP, isEX, isGL, h1, h2]
      · have hstep : partitionStep (np, ex, gl) m = (np, ex ++ [m], gl) := by
          simp [partitionStep, h1, h2]
        rw [hstep, ih]
        simp [List.filter_cons, isNP, isEX, isGL, h1, h2]

/-- The maximum-specificity fold of `selectMostSpecificMatches`. -/
def foldMaxSpec (a : Int) (l : List SectionMatch) : Int :=
  l.foldl (fun acc m => if m.specificity > acc then m.specificity else acc) a

theorem le_foldMaxSpec (l : List SectionMatch) (a : Int) : a ≤ foldMaxSpec a l := by
  induction l generalizing a with
  | nil => exact le_refl a
  | cons m t ih =>
    refine le_trans ?_ (ih (if m.specificity > a then m.specificity else a))
    split
    · omega
    · exact le_refl a

theorem spec_le_foldMaxSpec (l : List SectionMatch) (a : Int) (m : SectionMatch)
    (h : m ∈ l) : m.specificity ≤ foldMaxSpec a l := by
  induction l generalizing a with
  | nil => exact absurd h (List.not_mem_nil m)
  | cons x t ih =>
    rcases List.mem_cons.mp h with rfl | hm
    · refine le_trans ?_ (le_foldMaxSpec t (if m.specificity > a then m.specificity else a))
      split
      · exact le_refl _
      · omega
    · exact ih _ hm

theorem foldMaxSpec_const (l : List SectionMatch) (M a : Int)
    (hall : ∀ x ∈ l, x.specificity = M) (ha : a ≤ M) (hne : l ≠ []) :
    foldMaxSpec a l = M := by
  induction l generalizing a with
  | nil => exact absurd rfl hne
  | cons m t ih =>
    have hm : m.specificity = M := hall m (List.mem_cons_self m t)
    have hstep : (if m.specificity > a then m.specificity else a) ≤ M := by
      split
      · omega
      · exact ha
    cases t with
    | nil =>
      show foldMaxSpec (if m.specificity > a then m.specificity else a) [] = M
      show (if m.specificity > a then m.specificity else a) = M
      split
      · omega
      · omega
    | cons y ys =>
      show foldMaxSpec (if m.specificity > a then m.specificity else a) (y :: ys) = M
      exact ih _ (fun x hx => hall x (List.mem_cons_of_mem m hx)) hstep (by simp)


/-- The selection predicate that `selectMostSpecificMatches` effectively
applies to a determined match list: no-project and glob matches are
kept, exact matches are kept at maximal specificity. -/
def keepPred (ms : List SectionMatch) (m : SectionMatch) : Bool :=
  isNP m || isGL m || (isEX m && decide (m.specificity = foldMaxSpec 0 (ms.filter isEX)))

/-- The `result` list built inside `selectMostSpecificMatches`, after
the partition loop is expressed as filters. -/
def selResult (ms : List SectionMatch) : List SectionMatch :=
  ms.filter isNP
    ++ (if ms.filter isEX ≠ [] then
          (ms.filter isEX).filter
            (fun m => decide (m.specificity = foldMaxSpec 0 (ms.filter isEX)))
        else [])
    ++ ms.filter isGL

theorem selResult_subset (ms : List SectionMatch) (rm : SectionMatch)
    (h : rm ∈ selResult ms) : rm ∈ ms ∧ keepPred ms rm = true := by
  rcases List.mem_append.mp h with h1 | h2
  · rcases List.mem_append.mp h1 with hnp | hmid
    · obtain ⟨hm, hp⟩ := List.mem_filter.mp hnp
      exact ⟨hm, by simp [keepPred, hp]⟩
    · by_cases hex : ms.filter isEX ≠ []
      · rw [if_pos hex] at hmid
        obtain ⟨hm1, hp1⟩ := List.mem_filter.mp hmid
        obtain ⟨hm, hpex⟩ := List.mem_filter.mp hm1
        exact ⟨hm, by simp [keepPred, hpex, hp1]⟩
      · rw [if_neg hex] at hmid
        exact absurd hmid (List.not_mem_nil rm)
  · obtain ⟨hm, hp⟩ := List.mem_filter.mp h2
    exact ⟨hm, by simp [keepPred, hp]⟩

theorem mem_selResult_of_keep (ms : List SectionMatch) (m : SectionMatch)
    (hm : m ∈ ms) (hk : keepPred ms m = true) : m ∈ selResult ms := by
  by_cases hnp : isNP m = true
  · exact List.mem_append.mpr (Or.inl (List.mem_append.mpr
      (Or.inl (List.mem_filter.mpr ⟨hm, hnp⟩))))
  · by_cases hgl : isGL m = true
    · exact List.mem_append.mpr (Or.inr (List.mem_filter.mpr ⟨hm, hgl⟩))
    · have h3 : (isEX m && decide (m.specificity = foldMaxSpec 0 (ms.filter isEX))) = true := by
        simp only [keepPred, Bool.or_eq_true] at hk
        rcases hk with (h | h) | h
        · exact absurd h hnp
        · exact absurd h hgl
        · exact h
      rw [Bool.and_eq_true] at h3
      obtain ⟨hex, hsp⟩ := h3
      have hmem : m ∈ ms.filter isEX := List.mem_filter.mpr ⟨hm, hex⟩
      have hne : ms.filter isEX ≠ [] := List.ne_nil_of_mem hmem
      refine List.mem_append.mpr (Or.inl (List.mem_append.mpr (Or.inr ?_)))
      rw [if_pos hne]
      exact List.mem_filter.mpr ⟨hmem, hsp⟩

theorem sec_eq_of_parts {a b : Section} (ht : a.title = b.title)
    (hc : a.content = b.content) : a = b := by
  have e1 : a = ⟨a.title, a.content⟩ := rfl
  have e2 : b = ⟨b.title, b.content⟩ := rfl
  rw [e1, e2, Section.mk.injEq]
  exact ⟨ht, hc⟩

theorem selResult_find (ms : List SectionMatch)
    (hdet : ∀ m ∈ ms, ∀ m' ∈ ms, m.sec = m'.sec → m = m')
    (om : SectionMatch) (hom : om ∈ ms) :
    (selResult ms).find? (fun rm =>
        decide (om.sec.title = rm.sec.title ∧ om.sec.content = rm.sec.content))
      = if keepPred ms om = true then some om else none := by
  by_cases hk : keepPred ms om = true
  · rw [if_pos hk]
    have homR : om ∈ selResult ms := mem_selResult_of_keep ms om hom hk
    cases hf : (selResult ms).find? (fun rm =>
        decide (om.sec.title = rm.sec.title ∧ om.sec.content = rm.sec.content)) with
    | none =>
      exfalso
      exact (List.find?_eq_none.mp hf om homR) (decide_eq_true ⟨rfl, rfl⟩)
    | some rm =>
      have hp := List.find?_some hf
      have hmem := List.mem_of_find?_eq_some hf
      obtain ⟨ht, hc⟩ := of_decide_eq_true hp
      have hsec : om.sec = rm.sec := sec_eq_of_parts ht hc
      have hrm_ms : rm ∈ ms := (selResult_subset ms rm hmem).1
      rw [hdet om hom rm hrm_ms hsec]
  · rw [if_neg hk]
    apply List.find?_eq_none.mpr
    intro rm hrm hp
    obtain ⟨ht, hc⟩ := of_decide_eq_true hp
    have hsec : om.sec = rm.sec := sec_eq_of_parts ht hc
    have hrm_ms : rm ∈ ms := (selResult_subset ms rm hrm).1
    have heq : om = rm := hdet om hom rm hrm_ms hsec
    rw [heq] at hk
    exact hk (selResult_subset ms rm hrm).2

theorem foldl_find_filter (ms R : List SectionMatch)
    (l acc : List SectionMatch)
    (hfind : ∀ om ∈ l, R.find? (fun rm =>
        decide (om.sec.title = rm.sec.title ∧ om.sec.content = rm.sec.content))
      = if keepPred ms om = true then some om else none) :
    l.foldl (fun acc om =>
      match R.find? (fun rm =>
          decide (om.sec.title = rm.sec.title ∧ om.sec.content = rm.sec.content)) with
      | some rm => acc ++ [rm]
      | none => acc) acc
    = acc ++ l.filter (keepPred ms) := by
  induction l generalizing acc with
  | nil => simp
  | cons om t ih =>
    rw [List.foldl_cons]
    have h1 := hfind om (List.mem_cons_self om t)
    have ih' := fun (a : List SectionMatch) =>
      ih a (fun x hx => hfind x (List.mem_cons_of_mem om hx))
    by_cases hk : keepPred ms om = true
    · rw [if_pos hk] at h1
      simp only [h1]
      rw [ih' (acc ++ [om]), List.filter_cons_of_pos hk]
      simp
    · rw [if_neg hk] at h1
      simp only [h1]
      rw [ih' acc, List.filter_cons_of_neg (by simp [hk])]

/-- On a determined match list (section determines the match — true of
every list `collectMatches` builds), `selectMostSpecificMatches` is the
filter by `keepPred`: no-project and glob matches survive, and exact
matches survive exactly at maximal specificity. -/
theorem select_eq_filter (ms : List SectionMatch)
    (hdet : ∀ m ∈ ms, ∀ m' ∈ ms, m.sec = m'.sec → m = m') :
    selectMostSpecificMatches ms = ms.filter (keepPred ms) := by
  by_cases hms : ms = []
  · subst hms
    rfl
  · rw [selectMostSpecificMatches, if_neg hms]
    have hstep : (ms.foldl partitionStep ([], [], []))
        = (ms.filter isNP, ms.filter isEX, ms.filter isGL) := by
      rw [foldl_partitionStep]
      simp
    rw [hstep]
    show ms.foldl (fun acc om =>
      match (selResult ms).find? (fun rm =>
          decide (om.sec.title = rm.sec.title ∧ om.sec.content = rm.sec.content)) with
      | some rm => acc ++ [rm]
      | none => acc) [] = ms.filter (keepPred ms)
    rw [foldl_find_filter ms (selResult ms) ms [] (selResult_find ms hdet)]
    simp

theorem foldl_find_mem (R : List SectionMatch) (l acc : List SectionMatch)
    (m : SectionMatch)
    (h : m ∈ l.foldl (fun acc om =>
      match R.find? (fun rm =>
          decide (om.sec.title = rm.sec.title ∧ om.sec.content = rm.sec.content)) with
      | some rm => acc ++ [rm]
      | none => acc) acc) :
    m ∈ acc ∨ m ∈ R := by
  induction l generalizing acc with
  | nil => exact Or.inl h
  | cons om t ih =>
    rw [List.foldl_cons] at h
    cases hf : R.find? (fun rm =>
        decide (om.sec.title = rm.sec.title ∧ om.sec.content = rm.sec.content)) with
    | none =>
      simp only [hf] at h
      exact ih acc h
    | some rm =>
      simp only [hf] at h
      rcases ih (acc ++ [rm]) h with hacc | hR
      · rcases List.mem_append.mp hacc with h1 | h2
        · exact Or.inl h1
        · rw [List.mem_singleton.mp h2]
          exact Or.inr (List.mem_of_find?_eq_some hf)
      · exact Or.inr hR

/-- Every selected match is one of the input matches. -/
theorem select_subset {ms : List SectionMatch} {m : SectionMatch}
    (h : m ∈ selectMostSpecificMatches ms) : m ∈ ms := by
  by_cases hms : ms = []
  · subst hms
    exact absurd h (List.not_mem_nil m)
  · rw [selectMostSpecificMatches, if_neg hms] at h
    have hstep : (ms.foldl partitionStep ([], [], []))
        = (ms.filter isNP, ms.filter isEX, ms.filter isGL) := by
      rw [foldl_partitionStep]
      simp
    rw [hstep] at h
    have h' : m ∈ ms.foldl (fun acc om =>
      match (selResult ms).find? (fun rm =>
          decide (om.sec.title = rm.sec.title ∧ om.sec.content = rm.sec.content)) with
      | some rm => acc ++ [rm]
      | none => acc) [] := h
    rcases foldl_find_mem (selResult ms) ms [] m h' with hacc | hR
    · exact absurd hacc (List.not_mem_nil m)
    · exact (selResult_subset ms m hR).1


/-- Count of non-glob path segments of a resolved spec (the glob
specificity base of `shouldIncludeSection`). -/
def countNonGlobSegs (p : GoStr) : Int :=
  (((splitGo '/' (trimChar '/' p)).filter (fun seg => !containsGlobPattern seg)).length : Int)

/-- A git-worktree match reason can only arise from a positive answer
of the worktree oracle. -/
theorem shouldInclude_worktree_reason (ctx : Ctx) (heading cwd : GoStr) (cu : Bool)
    (h : (shouldIncludeSection ctx heading cwd cu).reason = .gitWorktree) :
    ∃ a b, ctx.isGitWorktree a b = true := by
  simp only [shouldIncludeSection] at h
  repeat' split at h
  all_goals try exact ⟨_, _, by assumption⟩
  all_goals simp_all

/-- A glob match's specificity is 1000 plus the count of non-glob
segments of the returned resolved project path. -/
theorem shouldInclude_glob_spec (ctx : Ctx) (heading cwd : GoStr) (cu : Bool)
    (inc : Bool) (pp : GoStr) (sp : Int)
    (h : shouldIncludeSection ctx heading cwd cu = ⟨inc, .globMatch, pp, sp⟩) :
    sp = 1000 + countNonGlobSegs pp := by
  simp only [shouldIncludeSection] at h
  repeat' split at h
  all_goals simp_all [IncludeResult.mk.injEq, countNonGlobSegs]
  all_goals
    obtain ⟨-, hpp, hsp⟩ := h
    rw [← hpp, ← hsp]

/-- With no worktree rewrites pending, the rewrite map is the section
projection. -/
theorem map_applyWorktreeRewrite_of_no_wt (dir : GoStr) (kept : List SectionMatch)
    (h : ∀ m ∈ kept, m.matchReason ≠ .gitWorktree) :
    kept.map (applyWorktreeRewrite dir) = kept.map (·.sec) :=
  List.map_congr_left fun m hm => by rw [applyWorktreeRewrite, if_neg (h m hm)]

theorem isEX_parts {m : SectionMatch} (hex : isEX m = true) :
    isNP m = false ∧ isGL m = false := by
  rw [isEX, Bool.and_eq_true] at hex
  obtain ⟨h1, h2⟩ := hex
  simp only [Bool.not_eq_true'] at h1 h2
  exact ⟨h1, h2⟩

theorem keepPred_exact_spec {ms : List SectionMatch} {m : SectionMatch}
    (hk : keepPred ms m = true) (hex : isEX m = true) :
    m.specificity = foldMaxSpec 0 (ms.filter isEX) := by
  obtain ⟨hnp, hgl⟩ := isEX_parts hex
  simp only [keepPred, hnp, hgl, hex, Bool.false_or, Bool.true_and] at hk
  exact of_decide_eq_true hk


/-! ### Claim C1 -/

/-- With a trivial worktree oracle the section-level filter is a fixed
point of a second pass: re-parsing the reassembled output reproduces the
kept sections, each still matches for the same reason, and the kept
exact matches all sit at the (unchanged) maximal specificity. -/
theorem filterSections_fixed (ctx : Ctx) (hwt : ∀ a b, ctx.isGitWorktree a b = false)
    (content dir : GoStr) (cu : Bool) :
    filterSectionsByDir ctx (filterContentByDir ctx content dir cu) dir cu
      = filterSectionsByDir ctx content dir cu := by
  have hdet : ∀ m ∈ collectMatches ctx (parseSections content) dir cu,
      ∀ m' ∈ collectMatches ctx (parseSections content) dir cu, m.sec = m'.sec → m = m' :=
    fun m hm m' hm' hsec => collectMatches_det hm hm' hsec
  have hsubms : ∀ m ∈ selectMostSpecificMatches
        (collectMatches ctx (parseSections content) dir cu),
      m ∈ collectMatches ctx (parseSections content) dir cu :=
    fun m hm => select_subset hm
  have hnowt : ∀ m ∈ selectMostSpecificMatches
        (collectMatches ctx (parseSections content) dir cu),
      m.matchReason ≠ .gitWorktree := by
    intro m hm hcon
    have hinc := (mem_collectMatches (hsubms m hm)).2
    have hreason : (shouldIncludeSection ctx m.sec.title dir cu).reason = .gitWorktree := by
      rw [hinc]
      exact hcon
    obtain ⟨a, b, hab⟩ := shouldInclude_worktree_reason ctx m.sec.title dir cu hreason
    rw [hwt a b] at hab
    exact Bool.noConfusion hab
  have hfaithful : ∀ m ∈ selectMostSpecificMatches
        (collectMatches ctx (parseSections content) dir cu),
      shouldIncludeSection ctx m.sec.title dir cu
        = ⟨true, m.matchReason, m.projectPath, m.specificity⟩ :=
    fun m hm => (mem_collectMatches (hsubms m hm)).2
  have hout : filterContentByDir ctx content dir cu
      = joinPieces ((selectMostSpecificMatches
          (collectMatches ctx (parseSections content) dir cu)).map (·.sec)) := by
    rw [filterContentByDir, filterSectionsByDir,
      map_applyWorktreeRewrite_of_no_wt dir _ hnowt]
  have hWFsecs : sectionsWF (parseSections content) :=
    parseSectionsAux_WF (splitGo '\n' content) none false
      (fun l hl => not_mem_of_mem_splitGo '\n' content l hl) trivial
  have hkeep1 : selectMostSpecificMatches (collectMatches ctx (parseSections content) dir cu)
      = (collectMatches ctx (parseSections content) dir cu).filter
          (keepPred (collectMatches ctx (parseSections content) dir cu)) :=
    select_eq_filter _ hdet
  have hsubl : List.Sublist
      ((selectMostSpecificMatches
          (collectMatches ctx (parseSections content) dir cu)).map (·.sec))
      (parseSections content) := by
    have h1 : List.Sublist
        ((selectMostSpecificMatches
            (collectMatches ctx (parseSections content) dir cu)).map (·.sec))
        ((collectMatches ctx (parseSections content) dir cu).map (·.sec)) := by
      rw [hkeep1]
      exact List.Sublist.map _ (List.filter_sublist _)
    have h2 : List.Sublist
        ((collectMatches ctx (parseSections content) dir cu).map (·.sec))
        (parseSections content) := by
      rw [collectMatches_map_sec]
      exact List.filter_sublist _
    exact h1.trans h2
  have hWFkept : sectionsWF ((selectMostSpecificMatches
      (collectMatches ctx (parseSections content) dir cu)).map (·.sec)) :=
    sectionsWF_sublist hWFsecs hsubl
  have hreparse : parseSections (filterContentByDir ctx content dir cu)
      = (selectMostSpecificMatches
          (collectMatches ctx (parseSections content) dir cu)).map (·.sec) := by
    rw [hout]
    exact parseSections_joinPieces _ hWFkept
  have hcollect2 : collectMatches ctx
      ((selectMostSpecificMatches
          (collectMatches ctx (parseSections content) dir cu)).map (·.sec)) dir cu
      = selectMostSpecificMatches (collectMatches ctx (parseSections content) dir cu) :=
    collectMatches_of_faithful ctx dir cu _ hfaithful
  have hdet2 : ∀ m ∈ selectMostSpecificMatches
        (collectMatches ctx (parseSections content) dir cu),
      ∀ m' ∈ selectMostSpecificMatches
        (collectMatches ctx (parseSections content) dir cu),
      m.sec = m'.sec → m = m' :=
    fun m hm m' hm' => hdet m (hsubms m hm) m' (hsubms m' hm')
  have hselect2 : selectMostSpecificMatches (selectMostSpecificMatches
      (collectMatches ctx (parseSections content) dir cu))
      = selectMostSpecificMatches (collectMatches ctx (parseSections content) dir cu) := by
    rw [select_eq_filter _ hdet2]
    apply List.filter_eq_self.mpr
    intro m hm
    have hkm : keepPred (collectMatches ctx (parseSections content) dir cu) m = true := by
      have hmm := hm
      rw [hkeep1] at hmm
      exact (List.mem_filter.mp hmm).2
    by_cases hnp : isNP m = true
    · simp [keepPred, hnp]
    · by_cases hgl : isGL m = true
      · simp [keepPred, hgl]
      · have hex : isEX m = true := by simp [isEX, hnp, hgl]
        have hspm := keepPred_exact_spec hkm hex
        have hall : ∀ x ∈ (selectMostSpecificMatches
            (collectMatches ctx (parseSections content) dir cu)).filter isEX,
            x.specificity = foldMaxSpec 0
              ((collectMatches ctx (parseSections content) dir cu).filter isEX) := by
          intro x hx
          obtain ⟨hxk, hxex⟩ := List.mem_filter.mp hx
          have hkx : keepPred (collectMatches ctx (parseSections content) dir cu) x = true := by
            have hxx := hxk
            rw [hkeep1] at hxx
            exact (List.mem_filter.mp hxx).2
          exact keepPred_exact_spec hkx hxex
        have hne2 : (selectMostSpecificMatches
            (collectMatches ctx (parseSections content) dir cu)).filter isEX ≠ [] :=
          List.ne_nil_of_mem (List.mem_filter.mpr ⟨hm, hex⟩)
        have hM0 : (0 : Int) ≤ foldMaxSpec 0
            ((collectMatches ctx (parseSections content) dir cu).filter isEX) :=
          le_foldMaxSpec _ 0
        have hmax2 : foldMaxSpec 0 ((selectMostSpecificMatches
            (collectMatches ctx (parseSections content) dir cu)).filter isEX)
            = foldMaxSpec 0 ((collectMatches ctx (parseSections content) dir cu).filter isEX) :=
          foldMaxSpec_const _ _ 0 hall hM0 hne2
        simp [keepPred, hex, hspm, hmax2]
  rw [filterSectionsByDir, hreparse, hcollect2, hselect2,
    map_applyWorktreeRewrite_of_no_wt dir _ hnowt]
  rw [filterSectionsByDir, map_applyWorktreeRewrite_of_no_wt dir _ hnowt]

/-- Claim C1 (amended): the section filter is idempotent for every
document, directory and flavor provided no directory pair is related by
the git-worktree fallback (trivial worktree oracle): the second pass
keeps every section the first pass kept and changes nothing. -/
theorem C1_filter_idempotent_no_worktree :
    ∀ ctx : Ctx, (∀ a b, ctx.isGitWorktree a b = false) →
      ∀ (content dir : GoStr) (cu : Bool),
        filterContentByDir ctx (filterContentByDir ctx content dir cu) dir cu
          = filterContentByDir ctx content dir cu := by
  intro ctx hwt content dir cu
  calc filterContentByDir ctx (filterContentByDir ctx content dir cu) dir cu
      = joinPieces (filterSectionsByDir ctx
          (filterContentByDir ctx content dir cu) dir cu) := rfl
    _ = joinPieces (filterSectionsByDir ctx content dir cu) := by
          rw [filterSections_fixed ctx hwt content dir cu]
    _ = filterContentByDir ctx content dir cu := rfl

/-- Witness for C1: idempotence at a concrete document and directory
under the neutral context. -/
theorem C1_filter_idempotent_no_worktree_witness :
    filterContentByDir ctx0 (filterContentByDir ctx0
        (gs "# A(project: /a)\nxa\n# B\nxb") (gs "/a/b") true) (gs "/a/b") true
      = filterContentByDir ctx0 (gs "# A(project: /a)\nxa\n# B\nxb") (gs "/a/b") true :=
  C1_filter_idempotent_no_worktree ctx0 (fun _ _ => rfl)
    (gs "# A(project: /a)\nxa\n# B\nxb") (gs "/a/b") true

/-- Claim C1 (counterexample): with `/a/b/c` worktree-related to
`/x/y`, filtering `"# S1(project: /a/b)\n# S2(project: /x/y)"` from
`/a/b/c` keeps both sections and rewrites S2's heading to
`(project: /a/b/c)`; the second pass then sees S2 as a literal path
match of higher specificity (3 > 2) and drops S1, so filtering twice
differs from filtering once. -/
theorem C1_idempotence_fails_with_worktree :
    filterContentByDir ctxW (filterContentByDir ctxW
        (gs "# S1(project: /a/b)\n# S2(project: /x/y)") (gs "/a/b/c") true)
        (gs "/a/b/c") true
      ≠ filterContentByDir ctxW
          (gs "# S1(project: /a/b)\n# S2(project: /x/y)") (gs "/a/b/c") true := by
  decide


/-! ### Claim C3 -/

/-- Claim C3: from `/a/b/c`, a document with `project:` specs `/a` and
`/a/b` and a spec-free section keeps exactly the spec-free section and
the `/a/b` section (never `/a`); in general, a no-project match is
always kept by the selection, and an exact match of strictly lower
specificity than a coexisting exact match is never kept. -/
theorem C3_most_specific_literal_wins :
    filterContentByDir ctx0
        (gs "# A(project: /a)\nxa\n# B(project: /a/b)\nxb\n# C\nxc") (gs "/a/b/c") true
      = gs "# B(project: /a/b)\nxb\n# C\nxc"
    ∧ (∀ (ctx : Ctx) (secs : List Section) (dir : GoStr) (cu : Bool) (m : SectionMatch),
        m ∈ collectMatches ctx secs dir cu → m.matchReason = .noProject →
        m ∈ selectMostSpecificMatches (collectMatches ctx secs dir cu))
    ∧ (∀ (ctx : Ctx) (secs : List Section) (dir : GoStr) (cu : Bool) (m m' : SectionMatch),
        m ∈ collectMatches ctx secs dir cu → m' ∈ collectMatches ctx secs dir cu →
        isEX m = true → isEX m' = true → m.specificity < m'.specificity →
        m ∉ selectMostSpecificMatches (collectMatches ctx secs dir cu)) := by
  refine ⟨by decide, ?_, ?_⟩
  · intro ctx secs dir cu m hm hr
    have hdet : ∀ x ∈ collectMatches ctx secs dir cu,
        ∀ x' ∈ collectMatches ctx secs dir cu, x.sec = x'.sec → x = x' :=
      fun x hx x' hx' hsec => collectMatches_det hx hx' hsec
    rw [select_eq_filter _ hdet]
    exact List.mem_filter.mpr ⟨hm, by simp [keepPred, isNP, hr]⟩
  · intro ctx secs dir cu m m' hm hm' hex hex' hlt
    have hdet : ∀ x ∈ collectMatches ctx secs dir cu,
        ∀ x' ∈ collectMatches ctx secs dir cu, x.sec = x'.sec → x = x' :=
      fun x hx x' hx' hsec => collectMatches_det hx hx' hsec
    rw [select_eq_filter _ hdet]
    intro hcon
    have hk := (List.mem_filter.mp hcon).2
    have hspm := keepPred_exact_spec hk hex
    have hle : m'.specificity ≤ foldMaxSpec 0 ((collectMatches ctx secs dir cu).filter isEX) :=
      spec_le_foldMaxSpec _ 0 m' (List.mem_filter.mpr ⟨hm', hex'⟩)
    omega

/-- Witness for C3: a concrete no-project match survives selection. -/
theorem C3_most_specific_literal_wins_witness :
    (⟨⟨gs "# C", gs "c"⟩, .noProject, [], 0⟩ : SectionMatch)
      ∈ selectMostSpecificMatches
          (collectMatches ctx0 [⟨gs "# C", gs "c"⟩] (gs "/a") true) :=
  C3_most_specific_literal_wins.2.1 ctx0 [⟨gs "# C", gs "c"⟩] (gs "/a") true
    ⟨⟨gs "# C", gs "c"⟩, .noProject, [], 0⟩ (by decide) rfl

/-! ### Claim C4 -/

/-- Claim C4: a section whose spec contains glob metacharacters and
matches the working directory is always kept in the final output — a
glob match survives selection regardless of any coexisting literal
match's specificity and is emitted unchanged; its specificity is 1000
plus the count of non-glob segments of the resolved spec; concretely,
from `/x/y` both `# T(project: /x/*)` and `# T2(project: /x/y)` are
kept. -/
theorem C4_glob_always_kept :
    (∀ (ctx : Ctx) (secs : List Section) (dir : GoStr) (cu : Bool) (m : SectionMatch),
        m ∈ collectMatches ctx secs dir cu → m.matchReason = .globMatch →
        m.sec ∈ (selectMostSpecificMatches (collectMatches ctx secs dir cu)).map
          (applyWorktreeRewrite dir))
    ∧ (∀ (ctx : Ctx) (heading cwd : GoStr) (cu inc : Bool) (pp : GoStr) (sp : Int),
        shouldIncludeSection ctx heading cwd cu = ⟨inc, .globMatch, pp, sp⟩ →
        sp = 1000 + countNonGlobSegs pp)
    ∧ filterContentByDir ctxG
        (gs "# T(project: /x/*)\n# T2(project: /x/y)") (gs "/x/y") true
      = gs "# T(project: /x/*)\n# T2(project: /x/y)" := by
  refine ⟨?_, ?_, by decide⟩
  · intro ctx secs dir cu m hm hr
    have hdet : ∀ x ∈ collectMatches ctx secs dir cu,
        ∀ x' ∈ collectMatches ctx secs dir cu, x.sec = x'.sec → x = x' :=
      fun x hx x' hx' hsec => collectMatches_det hx hx' hsec
    rw [select_eq_filter _ hdet]
    refine List.mem_map.mpr ⟨m, List.mem_filter.mpr ⟨hm, by simp [keepPred, isGL, hr]⟩, ?_⟩
    rw [applyWorktreeRewrite, if_neg (by simp [hr])]
  · intro ctx heading cwd cu inc pp sp h
    exact shouldInclude_glob_spec ctx heading cwd cu inc pp sp h

/-- Witness for C4: the concrete glob section survives selection
unchanged, and its specificity satisfies the 1000-based formula. -/
theorem C4_glob_always_kept_witness :
    (⟨gs "# T(project: /x/*)", []⟩ : Section)
      ∈ (selectMostSpecificMatches (collectMatches ctxG
          [⟨gs "# T(project: /x/*)", []⟩, ⟨gs "# T2(project: /x/y)", []⟩]
          (gs "/x/y") true)).map (applyWorktreeRewrite (gs "/x/y"))
    ∧ (1001 : Int) = 1000 + countNonGlobSegs (gs "/x/*") :=
  ⟨C4_glob_always_kept.1 ctxG
      [⟨gs "# T(project: /x/*)", []⟩, ⟨gs "# T2(project: /x/y)", []⟩] (gs "/x/y") true
      ⟨⟨gs "# T(project: /x/*)", []⟩, .globMatch, gs "/x/*", 1001⟩ (by decide) rfl,
   C4_glob_always_kept.2.1 ctxG (gs "# T(project: /x/*)") (gs "/x/y") true true
      (gs "/x/*") 1001 (by decide)⟩

/-! ### Claim C7 -/

/-- Claim C7: every emitted section arises from a parsed input section
whose heading passed the include test; when the match reason is the
git-worktree fallback the emitted heading is the original with its
`(project: ...)` group replaced by the querying directory, and for
every other reason (direct equality, path prefix, no spec, glob) the
section is emitted verbatim.  Concretely, with `/a/b` worktree-related
to `/x/y`, the `/x/y` heading is rewritten to `(project: /a/b)` while
the directly-matched `/a/b` heading is untouched. -/
theorem C7_worktree_rewrite :
    (∀ (ctx : Ctx) (content dir : GoStr) (cu : Bool) (s : Section),
        s ∈ filterSectionsByDir ctx content dir cu →
        ∃ s0 ∈ parseSections content,
          (shouldIncludeSection ctx s0.title dir cu).included = true
          ∧ ((shouldIncludeSection ctx s0.title dir cu).reason = .gitWorktree
                ∧ s = ⟨replaceProjectPath s0.title dir, s0.content⟩
              ∨ (shouldIncludeSection ctx s0.title dir cu).reason ≠ .gitWorktree
                ∧ s = s0))
    ∧ filterContentByDir ctxR
        (gs "# S1(project: /a/b)\nc1\n# S2(project: /x/y)\nc2") (gs "/a/b") true
      = gs "# S1(project: /a/b)\nc1\n# S2(project: /a/b)\nc2" := by
  refine ⟨?_, by decide⟩
  intro ctx content dir cu s hs
  rw [filterSectionsByDir] at hs
  obtain ⟨m, hmk, hms⟩ := List.mem_map.mp hs
  have hmm := select_subset hmk
  obtain ⟨hsec, hinc⟩ := mem_collectMatches hmm
  refine ⟨m.sec, hsec, ?_, ?_⟩
  · rw [hinc]
  · by_cases hwt : m.matchReason = .gitWorktree
    · refine Or.inl ⟨?_, ?_⟩
      · rw [hinc]
        exact hwt
      · rw [← hms, applyWorktreeRewrite, if_pos hwt]
    · refine Or.inr ⟨?_, ?_⟩
      · rw [hinc]
        exact hwt
      · rw [← hms, applyWorktreeRewrite, if_neg hwt]

/-- Witness for C7: the provenance statement at a concrete document. -/
theorem C7_worktree_rewrite_witness :
    ∃ s0 ∈ parseSections (gs "# C\nc"),
      (shouldIncludeSection ctx0 s0.title (gs "/a") true).included = true
      ∧ ((shouldIncludeSection ctx0 s0.title (gs "/a") true).reason = .gitWorktree
            ∧ (⟨gs "# C", gs "c"⟩ : Section)
                = ⟨replaceProjectPath s0.title (gs "/a"), s0.content⟩
          ∨ (shouldIncludeSection ctx0 s0.title (gs "/a") true).reason ≠ .gitWorktree
            ∧ (⟨gs "# C", gs "c"⟩ : Section) = s0) :=
  C7_worktree_rewrite.1 ctx0 (gs "# C\nc") (gs "/a") true ⟨gs "# C", gs "c"⟩ (by decide)


end WN
